import Mathlib

/-!
A shallow embedding of the js-ecs runtime (`src/ecs.js`) and proofs about it.

The source is a small Entity-Component-System: a world registry (`class ECS`)
owning entities, registered component types (with a per-type presence index),
registered systems, and cached queries.  Queries are AND-predicates over
component-type names, maintained incrementally on component attach (via a
`component_added` event) and by full rebuild on component detach.

Modelling conventions:
* Plain JavaScript objects used as dictionaries are association lists
  (string key to value, insertion order preserved, one entry per key);
  `obj[k] = v` is `setKey`, `delete obj[k]` is `delKey`, `k in obj` is a
  key-membership test.
* The source stores each attached component both at the entity root
  (`this[name]`) and in `this.components[name]`, always updated together;
  one map `Entity.components` models both.
* Thrown exceptions are modelled by an `Option JsError` (or `Except JsError`)
  result paired with the state as it stands at the throw point.
* Entity ids (`crypto.randomUUID()`) are strings supplied as parameters.
* Component property bags are integer-valued records.
* Object references held by query caches are identified by entity id.
* Published `component_added` events and `onRegistration` invocations are
  recorded in observation logs (`eventLog`, `hookRuns`) so that their absence
  or repetition is provable.
-/

deriving instance DecidableEq for Except

namespace JsEcs

/-- Entity identifiers: `crypto.randomUUID()` strings, supplied explicitly. -/
abbrev EntityId := String

/-- The exceptions the source can raise: the explicit
`throw new Error(...)` for an unregistered attach, the `ReferenceError` from
evaluating the out-of-scope `component_name` in `removeComponent`'s else
branch, and the `TypeError` from reading `.entities` of `undefined`. -/
inductive JsError where
  | unregistered
  | referenceError
  | typeError
deriving DecidableEq

/-- Dictionary lookup on a JavaScript object modelled as an association list. -/
def lookupKey {α : Type} (m : List (String × α)) (k : String) : Option α :=
  match m with
  | [] => none
  | (k', v) :: tl => if k' = k then some v else lookupKey tl k

/-- `obj[k] = v`: replaces the value under an existing key in place, otherwise
appends the new key at the end (JavaScript insertion order). -/
def setKey {α : Type} (m : List (String × α)) (k : String) (v : α) :
    List (String × α) :=
  match m with
  | [] => [(k, v)]
  | (k', v') :: tl => if k' = k then (k, v) :: tl else (k', v') :: setKey tl k v

/-- `delete obj[k]` (an object holds at most one entry per key). -/
def delKey {α : Type} (m : List (String × α)) (k : String) :
    List (String × α) :=
  match m with
  | [] => []
  | (k', v') :: tl => if k' = k then delKey tl k else (k', v') :: delKey tl k

/-- `obj[id] = true` on a presence object whose values are all `true`:
only the key set matters, so it is a list of ids. -/
def insertId (l : List EntityId) (eid : EntityId) : List EntityId :=
  if eid ∈ l then l else l ++ [eid]

/-- `delete obj[id]` on a presence object. -/
def removeId (l : List EntityId) (eid : EntityId) : List EntityId :=
  match l with
  | [] => []
  | x :: tl => if x = eid then removeId tl eid else x :: removeId tl eid

/-- A component instance: the property bag merged onto the instance by the
`Component` constructor (`Object.assign(this, properties)`), and the
back-reference to the owning entity set by `onAttached`. -/
structure Component where
  props : List (String × Int)
  entity : Option EntityId
deriving DecidableEq

/-- An entity: its id plus its component map (`this.components`, which the
source mirrors at the entity root under the component's type name). -/
structure Entity where
  id : EntityId
  components : List (String × Component)
deriving DecidableEq

/-- A value stored in a query's `entities` cache.  The full rebuild
(`Query.refresh`) stores the boolean `true`; the incremental path
(`Query.componentAddedToEntity`) stores the entity object itself, modelled
here by the entity's id (object identity). -/
inductive CacheVal where
  | vtrue
  | ventity (id : EntityId)
deriving DecidableEq

/-- A compiled query: the literal `logic` token list, the stripped
`component_names`, the resolution snapshot taken at construction
(`components.push(ecs.components[component_name])`: `some name` if the class
was registered at that moment, `none` for the JS `undefined`), and the
cached result object `this.entities`. -/
structure Query where
  logic : List String
  componentNames : List String
  resolved : List (Option String)
  entities : List (EntityId × CacheVal)
deriving DecidableEq

/-- The world registry (`class ECS`).  `components` maps a registered type
name to its presence index (`component_class.entities`, a set of entity ids).
`eventLog` records each dispatched `component_added` event as
`(entity id, component name)`; `hookRuns` records each `onRegistration`
invocation.  Both logs are observation-only. -/
structure ECS where
  entities : List (EntityId × Entity)
  systems : List String
  components : List (String × List EntityId)
  queries : List (String × Query)
  eventLog : List (EntityId × String)
  hookRuns : List String
deriving DecidableEq

/-- `new ECS()`: all tables empty. -/
def ECS.init : ECS := ⟨[], [], [], [], [], []⟩

/-- JavaScript's array-to-property-key coercion used by `logic in this.queries`
and `this.queries[logic]`: the elements joined by commas. -/
def logicKey (logic : List String) : String := String.intercalate "," logic

/-- Token parsing in the `Query` constructor: a leading `!` (the NOT marker,
`component_name.startsWith('!')`) is stripped once via `slice(1)`; the
stripped name is used as a required name.  Stated over the string's character
list so that it evaluates by kernel reduction. -/
def stripNot (s : String) : String :=
  match s.data with
  | '!' :: tl => { data := tl }
  | _ => s

/-- The compile-time part of the `Query` constructor (src/ecs.js lines
144-167): strip each token, resolve it against the current component table,
start with an empty cache.  (The constructor then registers the
`component_added` listener - modelled by membership in `ECS.queries` - and
runs `refresh`.) -/
def compileQuery (w : ECS) (logic : List String) : Query :=
  let componentNames := logic.map stripNot
  { logic := logic
    componentNames := componentNames
    resolved := componentNames.map (fun n =>
      if (lookupKey w.components n).isSome then some n else none)
    entities := [] }

/-- `Query.componentAddedToEntity` (lines 178-193): count how many of the
entity's own component keys occur in `component_names` (`includes`); if the
count equals `this.components.length` the entity object is stored in the
cache under its id. -/
def componentAddedToEntity (q : Query) (e : Entity) : Query :=
  let num_matches_required := q.resolved.length
  let cur_match_count :=
    (e.components.map Prod.fst).countP (fun n => decide (n ∈ q.componentNames))
  if cur_match_count = num_matches_required then
    { q with entities := setKey q.entities e.id (CacheVal.ventity e.id) }
  else q

/-- One step of the inner loop of `Query.refresh`: `component.entities[entity_id]`
for a resolved component.  The `none` case (JS `undefined.entities`) throws and
is handled by `refresh` itself; here it contributes no match. -/
def presHit (w : ECS) (r : Option String) (eid : EntityId) : Bool :=
  match r with
  | some n =>
    match lookupKey w.components n with
    | some pres => decide (eid ∈ pres)
    | none => false
  | none => false

/-- The non-throwing computation of `Query.refresh` (lines 194-216): clear the
cache, then for every entity in the world count the query components whose
presence index contains the entity's id, and store `true` under the ids that
meet the full count. -/
def refreshOk (w : ECS) (q : Query) : Query :=
  { q with entities := (w.entities.map Prod.fst).filterMap (fun eid =>
      if q.resolved.countP (fun r => presHit w r eid) = q.resolved.length
      then some (eid, CacheVal.vtrue) else none) }

/-- `Query.refresh`, with its failure mode: if any resolved component is the
JS `undefined` (its token was unregistered at construction) and the world has
at least one entity, the inner loop reads `.entities` of `undefined` and
throws a `TypeError` right after clearing the cache. -/
def refresh (w : ECS) (q : Query) : Except JsError Query :=
  if ¬ w.entities = [] ∧ q.resolved.any Option.isNone then Except.error JsError.typeError
  else Except.ok (refreshOk w q)

/-- `ECS.registerSystem` (lines 10-21): duplicate name rejected with a logged
error (the system instance constructed first has no effect on the world);
otherwise the system is stored and its `onRegistration` hook invoked once. -/
def registerSystem (w : ECS) (sname : String) : ECS :=
  if sname ∈ w.systems then w
  else { w with systems := w.systems ++ [sname], hookRuns := w.hookRuns ++ [sname] }

/-- `ECS.registerComponent` (lines 27-36): duplicate name rejected with a
logged error; otherwise the class is stored with a fresh empty presence index. -/
def registerComponent (w : ECS) (cname : String) : ECS :=
  if (lookupKey w.components cname).isSome then w
  else { w with components := setKey w.components cname [] }

/-- `ECS.addEntity` (lines 23-25). -/
def addEntity (w : ECS) (e : Entity) : ECS :=
  { w with entities := setKey w.entities e.id e }

/-- The `Entity` constructor (lines 79-84): fresh id, empty component map,
then `ecs.addEntity(this)`. -/
def createEntity (w : ECS) (id : EntityId) : ECS :=
  addEntity w { id := id, components := [] }

/-- `Entity.addComponent` (lines 86-102).  The component is constructed first;
if its class name is not registered an `Error` is thrown with the entity
untouched.  Otherwise: store the component on the entity, add the entity id to
the class's presence index, run `onAttached` (the back-reference), and
dispatch `component_added`, which runs `componentAddedToEntity` on every live
query. -/
def addComponent (w : ECS) (eid : EntityId) (cname : String)
    (props : List (String × Int)) : ECS × Option JsError :=
  match lookupKey w.components cname with
  | none => (w, some JsError.unregistered)
  | some pres =>
    match lookupKey w.entities eid with
    | none => (w, none)
    | some e =>
      let component : Component := { props := props, entity := some eid }
      let e' : Entity := { e with components := setKey e.components cname component }
      ({ w with
          entities := setKey w.entities eid e'
          components := setKey w.components cname (insertId pres eid)
          queries := w.queries.map (fun pr => (pr.1, componentAddedToEntity pr.2 e'))
          eventLog := w.eventLog ++ [(eid, cname)] }, none)

/-- The query-refresh loop of `Entity.removeComponent` (lines 111-116):
iterate the query keys in order, refreshing each query whose
`component_names` includes the removed name.  A throwing refresh leaves that
query's cache cleared and aborts the loop, propagating the exception. -/
def refreshQueries (w : ECS) (ks : List String) (cname : String) :
    ECS × Option JsError :=
  match ks with
  | [] => (w, none)
  | k :: tl =>
    match lookupKey w.queries k with
    | none => refreshQueries w tl cname
    | some q =>
      if cname ∈ q.componentNames then
        match refresh w q with
        | Except.ok q' =>
          refreshQueries { w with queries := setKey w.queries k q' } tl cname
        | Except.error err =>
          ({ w with queries := setKey w.queries k { q with entities := [] } }, some err)
      else refreshQueries w tl cname

/-- `Entity.removeComponent` (lines 104-121).  If the entity holds the
component: delete it from the entity, delete the id from the presence index
(a `TypeError` if the class is not registered, after the entity-side deletes),
then refresh every query using the name.  If the entity does not hold it, the
else branch evaluates the template literal over `component_name` - a `const`
declared only inside the then branch - and throws a `ReferenceError`. -/
def removeComponent (w : ECS) (eid : EntityId) (cname : String) :
    ECS × Option JsError :=
  match lookupKey w.entities eid with
  | none => (w, none)
  | some e =>
    if (lookupKey e.components cname).isSome then
      let e' : Entity := { e with components := delKey e.components cname }
      let w₁ : ECS := { w with entities := setKey w.entities eid e' }
      match lookupKey w.components cname with
      | none => (w₁, some JsError.typeError)
      | some pres =>
        let w₂ : ECS :=
          { w₁ with components := setKey w.components cname (removeId pres eid) }
        refreshQueries w₂ (w₂.queries.map Prod.fst) cname
    else
      (w, some JsError.referenceError)

/-- The entity as it stands after a successful `addComponent(cname, props)`:
the new component stored under its type name, back-reference set by
`onAttached`. -/
def attachEntity (e : Entity) (cname : String) (props : List (String × Int))
    (eid : EntityId) : Entity :=
  { e with components := setKey e.components cname { props := props, entity := some eid } }

/-- The entity as it stands after a successful `removeComponent(cname)`. -/
def detachEntity (e : Entity) (cname : String) : Entity :=
  { e with components := delKey e.components cname }

/-- `ECS.createQuery` (lines 46-56): an existing key is rejected (`false`
with a logged error); otherwise the `Query` constructor runs (compile plus a
first `refresh`, whose exception propagates with the queries table
unchanged), the query is stored, and `refresh` runs a second time. -/
def createQuery (w : ECS) (logic : List String) : ECS × Except JsError Bool :=
  let key := logicKey logic
  if (lookupKey w.queries key).isSome then
    (w, Except.ok false)
  else
    match refresh w (compileQuery w logic) with
    | Except.error err => (w, Except.error err)
    | Except.ok q =>
      let w₁ : ECS := { w with queries := setKey w.queries key q }
      match refresh w₁ q with
      | Except.error err => (w₁, Except.error err)
      | Except.ok q₁ => ({ w₁ with queries := setKey w₁.queries key q₁ }, Except.ok true)

/-- `ECS.query` (lines 58-73): return the cached result object for the key,
creating the query on first use; if `createQuery` returns `false` the call
logs an error and returns `{}`; an exception thrown during creation
propagates to the caller. -/
def query (w : ECS) (logic : List String) :
    ECS × Except JsError (List (EntityId × CacheVal)) :=
  let key := logicKey logic
  match lookupKey w.queries key with
  | some q => (w, Except.ok q.entities)
  | none =>
    match createQuery w logic with
    | (w₁, Except.ok true) =>
      (w₁, Except.ok (((lookupKey w₁.queries key).map Query.entities).getD []))
    | (w₁, Except.ok false) => (w₁, Except.ok [])
    | (w₁, Except.error err) => (w₁, Except.error err)

/-- A structural mutation: `entity.addComponent` or `entity.removeComponent`,
named by entity id. -/
inductive MOp where
  | attach (eid : EntityId) (cname : String) (props : List (String × Int))
  | detach (eid : EntityId) (cname : String)

/-- Run one mutation; a thrown exception leaves the state as it stands at the
throw point (the caller catching it and continuing). -/
def step (w : ECS) : MOp → ECS
  | MOp.attach eid cname props => (addComponent w eid cname props).1
  | MOp.detach eid cname => (removeComponent w eid cname).1

/-- Run a sequence of mutations. -/
def steps (w : ECS) (ops : List MOp) : ECS := ops.foldl step w

/-- Does the world's entity table hold, under `eid`, an entity owning a
component named `n`? -/
def holdsB (w : ECS) (eid : EntityId) (n : String) : Bool :=
  match lookupKey w.entities eid with
  | some e => (lookupKey e.components n).isSome
  | none => false

/-- Does the entity hold a component of every name in `names`? -/
def matchesB (names : List String) (e : Entity) : Bool :=
  names.all (fun n => (lookupKey e.components n).isSome)

/-- Is `eid` an existing entity holding a component of every name in `names`? -/
def matchesInWorldB (w : ECS) (names : List String) (eid : EntityId) : Bool :=
  match lookupKey w.entities eid with
  | some e => matchesB names e
  | none => false

/-- Well-formedness of one entity-table entry: keyed by its own id, component
keys distinct (JS object keys), and every held component's type registered
(the only way to gain a component is a successful `addComponent`). -/
def EntityWF (w : ECS) (p : EntityId × Entity) : Prop :=
  p.2.id = p.1 ∧ (p.2.components.map Prod.fst).Nodup ∧
    ∀ pr ∈ p.2.components, (lookupKey w.components pr.1).isSome = true

/-- Invariant I1 for one component-type record: its presence index is exactly
the set of ids of entities holding that type. -/
def PresenceWF (w : ECS) (p : String × List EntityId) : Prop :=
  p.2.Nodup ∧ (∀ eid ∈ p.2, holdsB w eid p.1 = true) ∧
    ∀ q ∈ w.entities, (lookupKey q.2.components p.1).isSome = true → q.1 ∈ p.2

/-- A query whose every token resolved at construction: the resolution
snapshot is the stripped name list itself, and each name is registered. -/
def QWF (w : ECS) (q : Query) : Prop :=
  q.resolved = q.componentNames.map some ∧
    ∀ n ∈ q.componentNames, (lookupKey w.components n).isSome = true

/-- Well-formed world: distinct keys in every table, well-formed entities,
invariant I1 for every registered type, and every live query fully resolved.
Every state reachable through the public surface satisfies this. -/
def WF (w : ECS) : Prop :=
  (w.entities.map Prod.fst).Nodup ∧
  (w.components.map Prod.fst).Nodup ∧
  (w.queries.map Prod.fst).Nodup ∧
  (∀ p ∈ w.entities, EntityWF w p) ∧
  (∀ p ∈ w.components, PresenceWF w p) ∧
  ∀ p ∈ w.queries, QWF w p.2

/-- Invariant I2 for one query: the cached ids are exactly the existing
entities holding every required name. -/
def QInv (w : ECS) (q : Query) : Prop :=
  (∀ pr ∈ q.entities, matchesInWorldB w q.componentNames pr.1 = true) ∧
  ∀ p ∈ w.entities, matchesB q.componentNames p.2 = true →
    (lookupKey q.entities p.1).isSome = true

instance (w : ECS) (p : EntityId × Entity) : Decidable (EntityWF w p) := by
  unfold EntityWF; infer_instance

instance (w : ECS) (p : String × List EntityId) : Decidable (PresenceWF w p) := by
  unfold PresenceWF; infer_instance

instance (w : ECS) (q : Query) : Decidable (QWF w q) := by
  unfold QWF; infer_instance

instance (w : ECS) : Decidable (WF w) := by
  unfold WF; infer_instance

instance (w : ECS) (q : Query) : Decidable (QInv w q) := by
  unfold QInv; infer_instance

/-- A world with component type `A` registered and one bare entity `e1`:
the smallest world exercising registration and entity creation. -/
def wA1 : ECS := createEntity (registerComponent ECS.init "A") "e1"

/-- `wA1` after creating the duplicate-token query `["A","A"]` and then
attaching `A` to `e1` (so only the incremental maintenance path has run). -/
def wDup : ECS := step (createQuery wA1 ["A","A"]).1 (MOp.attach "e1" "A" [])

/-- A world with one entity and no registered component types. -/
def wEnt : ECS := createEntity ECS.init "e1"

/-- A world with type `P` registered, entities `f` and `e`, a live query
`["P"]`, and `P` attached to `f` (through the incremental path). -/
def wPfe : ECS :=
  step (createQuery (createEntity (createEntity (registerComponent ECS.init "P") "f") "e")
    ["P"]).1 (MOp.attach "f" "P" [])

/-- The entity `e1` as it stands in `wA1` after a successful
`addComponent(A, {})`. -/
def entA : Entity := { id := "e1", components := [("A", { props := [], entity := some "e1" })] }

/-- `wA1` with the query `["A"]` created: exercises the cached-query path. -/
def wq5 : ECS := (createQuery wA1 ["A"]).1

/-- The query object stored in `wq5` under key `"A"` (entity `e1` holds no
components yet, so the initial rebuild caches nothing). -/
def qA5 : Query :=
  { logic := ["A"], componentNames := ["A"], resolved := [some "A"], entities := [] }

/-! ### Association-list lemmas -/

theorem lookupKey_setKey_self {α : Type} (m : List (String × α)) (k : String) (v : α) :
    lookupKey (setKey m k v) k = some v := by
  induction m with
  | nil => simp [setKey, lookupKey]
  | cons hd tl ih =>
    obtain ⟨a, b⟩ := hd
    by_cases h : a = k
    · simp [setKey, h, lookupKey]
    · simp [setKey, h, lookupKey, ih]

theorem lookupKey_setKey_ne {α : Type} (m : List (String × α)) {k k' : String} (v : α)
    (h : ¬ k' = k) : lookupKey (setKey m k v) k' = lookupKey m k' := by
  have h' : ¬ k = k' := fun hh => h hh.symm
  induction m with
  | nil => simp [setKey, lookupKey, h']
  | cons hd tl ih =>
    obtain ⟨a, b⟩ := hd
    by_cases hak : a = k
    · subst hak
      simp [setKey, lookupKey, h']
    · simp [setKey, hak, lookupKey, ih]

theorem lookupKey_delKey_self {α : Type} (m : List (String × α)) (k : String) :
    lookupKey (delKey m k) k = none := by
  induction m with
  | nil => simp [delKey, lookupKey]
  | cons hd tl ih =>
    obtain ⟨a, b⟩ := hd
    by_cases hak : a = k
    · simp [delKey, hak, ih]
    · simp [delKey, hak, lookupKey, ih]

theorem lookupKey_delKey_ne {α : Type} (m : List (String × α)) {k k' : String}
    (h : ¬ k' = k) : lookupKey (delKey m k) k' = lookupKey m k' := by
  induction m with
  | nil => simp [delKey]
  | cons hd tl ih =>
    obtain ⟨a, b⟩ := hd
    by_cases hak : a = k
    · subst hak
      have h' : ¬ a = k' := fun hh => h hh.symm
      simp [delKey, lookupKey, h', ih]
    · simp [delKey, hak, lookupKey, ih]

theorem lookupKey_isSome_iff {α : Type} (m : List (String × α)) (k : String) :
    (lookupKey m k).isSome = true ↔ k ∈ m.map Prod.fst := by
  induction m with
  | nil => simp [lookupKey]
  | cons hd tl ih =>
    obtain ⟨a, b⟩ := hd
    by_cases h : a = k
    · simp [lookupKey, h]
    · have h' : ¬ k = a := fun hh => h hh.symm
      simp [lookupKey, h, ih, h']

theorem lookupKey_some_mem {α : Type} {m : List (String × α)} {k : String} {v : α}
    (h : lookupKey m k = some v) : (k, v) ∈ m := by
  induction m with
  | nil => simp [lookupKey] at h
  | cons hd tl ih =>
    obtain ⟨a, b⟩ := hd
    by_cases hak : a = k
    · subst hak
      simp [lookupKey] at h
      simp [h]
    · simp [lookupKey, hak] at h
      exact List.mem_cons_of_mem _ (ih h)

theorem lookupKey_of_mem_nodup {α : Type} {m : List (String × α)} {k : String} {v : α}
    (hnd : (m.map Prod.fst).Nodup) (h : (k, v) ∈ m) : lookupKey m k = some v := by
  induction m with
  | nil => simp at h
  | cons hd tl ih =>
    obtain ⟨a, b⟩ := hd
    simp only [List.map_cons, List.nodup_cons] at hnd
    rcases List.mem_cons.mp h with h1 | h1
    · cases h1
      simp [lookupKey]
    · have hak : ¬ a = k := by
        intro he
        subst he
        exact hnd.1 (List.mem_map_of_mem Prod.fst h1)
      simp [lookupKey, hak, ih hnd.2 h1]

theorem mem_setKey_weak {α : Type} {m : List (String × α)} {k : String} {v : α}
    {p : String × α} (h : p ∈ setKey m k v) : p = (k, v) ∨ p ∈ m := by
  induction m with
  | nil => simpa [setKey] using h
  | cons hd tl ih =>
    obtain ⟨a, b⟩ := hd
    by_cases hak : a = k
    · simp only [setKey, if_pos hak] at h
      rcases List.mem_cons.mp h with h1 | h1
      · exact Or.inl h1
      · exact Or.inr (List.mem_cons_of_mem _ h1)
    · simp only [setKey, if_neg hak] at h
      rcases List.mem_cons.mp h with h1 | h1
      · exact Or.inr (List.mem_cons.mpr (Or.inl h1))
      · rcases ih h1 with h2 | h2
        · exact Or.inl h2
        · exact Or.inr (List.mem_cons_of_mem _ h2)

theorem mem_setKey_iff {α : Type} {m : List (String × α)} {k : String} {v : α}
    (hnd : (m.map Prod.fst).Nodup) (p : String × α) :
    p ∈ setKey m k v ↔ p = (k, v) ∨ (p ∈ m ∧ ¬ p.1 = k) := by
  induction m with
  | nil => simp [setKey]
  | cons hd tl ih =>
    obtain ⟨a, b⟩ := hd
    simp only [List.map_cons, List.nodup_cons] at hnd
    by_cases hak : a = k
    · simp only [setKey, if_pos hak, List.mem_cons]
      constructor
      · rintro (h1 | h1)
        · exact Or.inl h1
        · refine Or.inr ⟨Or.inr h1, ?_⟩
          intro hpk
          have hm : p.1 ∈ List.map Prod.fst tl := List.mem_map_of_mem Prod.fst h1
          rw [hpk, ← hak] at hm
          exact hnd.1 hm
      · rintro (h1 | ⟨h1 | h1, h2⟩)
        · exact Or.inl h1
        · exact absurd (by rw [h1]; exact hak) h2
        · exact Or.inr h1
    · simp only [setKey, if_neg hak, List.mem_cons, ih hnd.2]
      constructor
      · rintro (h1 | h1 | ⟨h1, h2⟩)
        · subst h1
          exact Or.inr ⟨Or.inl rfl, hak⟩
        · exact Or.inl h1
        · exact Or.inr ⟨Or.inr h1, h2⟩
      · rintro (h1 | ⟨h1 | h1, h2⟩)
        · exact Or.inr (Or.inl h1)
        · subst h1
          exact Or.inl rfl
        · exact Or.inr (Or.inr ⟨h1, h2⟩)

theorem map_fst_setKey_isSome {α : Type} {m : List (String × α)} {k : String} (v : α)
    (h : (lookupKey m k).isSome = true) :
    (setKey m k v).map Prod.fst = m.map Prod.fst := by
  induction m with
  | nil => simp [lookupKey] at h
  | cons hd tl ih =>
    obtain ⟨a, b⟩ := hd
    by_cases hak : a = k
    · simp [setKey, hak]
    · simp only [lookupKey, if_neg hak] at h
      simp [setKey, hak, ih h]

theorem map_fst_setKey_none {α : Type} {m : List (String × α)} {k : String} (v : α)
    (h : lookupKey m k = none) :
    (setKey m k v).map Prod.fst = m.map Prod.fst ++ [k] := by
  induction m with
  | nil => simp [setKey]
  | cons hd tl ih =>
    obtain ⟨a, b⟩ := hd
    by_cases hak : a = k
    · simp [lookupKey, hak] at h
    · simp only [lookupKey, if_neg hak] at h
      simp [setKey, hak, ih h]

theorem nodup_map_fst_setKey {α : Type} {m : List (String × α)} {k : String} (v : α)
    (hnd : (m.map Prod.fst).Nodup) : ((setKey m k v).map Prod.fst).Nodup := by
  match h : lookupKey m k with
  | some w => rw [map_fst_setKey_isSome v (by simp [h])]; exact hnd
  | none =>
    rw [map_fst_setKey_none v h]
    refine List.Nodup.append hnd (List.nodup_singleton k) ?_
    intro x hx hk
    simp at hk
    subst hk
    have hs := (lookupKey_isSome_iff m x).mpr hx
    simp [h] at hs

theorem mem_delKey {α : Type} (m : List (String × α)) (k : String) (p : String × α) :
    p ∈ delKey m k ↔ p ∈ m ∧ ¬ p.1 = k := by
  induction m with
  | nil => simp [delKey]
  | cons hd tl ih =>
    obtain ⟨a, b⟩ := hd
    by_cases hak : a = k
    · simp only [delKey, if_pos hak, ih, List.mem_cons]
      constructor
      · rintro ⟨h1, h2⟩
        exact ⟨Or.inr h1, h2⟩
      · rintro ⟨h1 | h1, h2⟩
        · exact absurd (by rw [h1]; exact hak) h2
        · exact ⟨h1, h2⟩
    · simp only [delKey, if_neg hak, List.mem_cons, ih]
      constructor
      · rintro (h1 | ⟨h1, h2⟩)
        · subst h1
          exact ⟨Or.inl rfl, hak⟩
        · exact ⟨Or.inr h1, h2⟩
      · rintro ⟨h1 | h1, h2⟩
        · subst h1
          exact Or.inl rfl
        · exact Or.inr ⟨h1, h2⟩

theorem delKey_sublist {α : Type} (m : List (String × α)) (k : String) :
    (delKey m k).Sublist m := by
  induction m with
  | nil => simp [delKey]
  | cons hd tl ih =>
    obtain ⟨a, b⟩ := hd
    by_cases hak : a = k
    · simpa [delKey, hak] using List.Sublist.cons (a, b) ih
    · simpa [delKey, hak] using List.Sublist.cons₂ (a, b) ih

theorem nodup_map_fst_delKey {α : Type} {m : List (String × α)} (k : String)
    (hnd : (m.map Prod.fst).Nodup) : ((delKey m k).map Prod.fst).Nodup :=
  List.Nodup.sublist (List.Sublist.map Prod.fst (delKey_sublist m k)) hnd

theorem setKey_setKey_same {α : Type} (m : List (String × α)) (k : String) (v v' : α) :
    setKey (setKey m k v) k v' = setKey m k v' := by
  induction m with
  | nil => simp [setKey]
  | cons hd tl ih =>
    obtain ⟨a, b⟩ := hd
    by_cases hak : a = k
    · simp [setKey, hak]
    · simp [setKey, hak, ih]

theorem lookupKey_map_pair {α β : Type} (m : List (String × α)) (g : String × α → β)
    (k : String) :
    lookupKey (m.map (fun pr => (pr.1, g pr))) k
      = (lookupKey m k).map (fun v => g (k, v)) := by
  induction m with
  | nil => simp [lookupKey]
  | cons hd tl ih =>
    obtain ⟨a, b⟩ := hd
    by_cases hak : a = k
    · subst hak
      simp [lookupKey]
    · simp [lookupKey, hak, ih]

theorem map_fst_map_pair {α β : Type} (m : List (String × α)) (g : String × α → β) :
    (m.map (fun pr => (pr.1, g pr))).map Prod.fst = m.map Prod.fst := by
  induction m with
  | nil => simp
  | cons hd tl ih => simp [ih]

theorem mem_insertId (l : List EntityId) (eid x : EntityId) :
    x ∈ insertId l eid ↔ x ∈ l ∨ x = eid := by
  by_cases h : eid ∈ l
  · simp only [insertId, if_pos h]
    constructor
    · exact Or.inl
    · rintro (h1 | h1)
      · exact h1
      · exact h1 ▸ h
  · simp [insertId, if_neg h]

theorem nodup_insertId {l : List EntityId} (eid : EntityId) (hnd : l.Nodup) :
    (insertId l eid).Nodup := by
  by_cases h : eid ∈ l
  · simpa [insertId, if_pos h] using hnd
  · simp only [insertId, if_neg h]
    exact List.Nodup.append hnd (List.nodup_singleton eid)
      (by intro x hx hk; simp at hk; exact h (hk ▸ hx))

theorem mem_removeId (l : List EntityId) (eid x : EntityId) :
    x ∈ removeId l eid ↔ x ∈ l ∧ ¬ x = eid := by
  induction l with
  | nil => simp [removeId]
  | cons hd tl ih =>
    by_cases h : hd = eid
    · simp only [removeId, if_pos h, ih, List.mem_cons]
      constructor
      · rintro ⟨h1, h2⟩
        exact ⟨Or.inr h1, h2⟩
      · rintro ⟨h1 | h1, h2⟩
        · exact absurd (h1.trans h) h2
        · exact ⟨h1, h2⟩
    · simp only [removeId, if_neg h, List.mem_cons, ih]
      constructor
      · rintro (h1 | ⟨h1, h2⟩)
        · subst h1
          exact ⟨Or.inl rfl, h⟩
        · exact ⟨Or.inr h1, h2⟩
      · rintro ⟨h1 | h1, h2⟩
        · subst h1
          exact Or.inl rfl
        · exact Or.inr ⟨h1, h2⟩

theorem removeId_sublist (l : List EntityId) (eid : EntityId) :
    (removeId l eid).Sublist l := by
  induction l with
  | nil => simp [removeId]
  | cons hd tl ih =>
    by_cases h : hd = eid
    · simpa [removeId, h] using List.Sublist.cons hd ih
    · simpa [removeId, h] using List.Sublist.cons₂ hd ih

theorem nodup_removeId {l : List EntityId} (eid : EntityId) (hnd : l.Nodup) :
    (removeId l eid).Nodup :=
  List.Nodup.sublist (removeId_sublist l eid) hnd

theorem lookupKey_filterMap_ite {α : Type} (ids : List String) (P : String → Prop)
    [DecidablePred P] (v : α) (k : String) :
    lookupKey (ids.filterMap (fun i => if P i then some (i, v) else none)) k
      = if k ∈ ids ∧ P k then some v else none := by
  induction ids with
  | nil => simp [lookupKey]
  | cons hd tl ih =>
    by_cases hk : hd = k
    · subst hk
      by_cases hc : P hd
      · simp [List.filterMap_cons, hc, lookupKey]
      · simp [List.filterMap_cons, hc, ih]
    · have hk' : ¬ k = hd := fun hh => hk hh.symm
      by_cases hc : P hd
      · simp [List.filterMap_cons, hc, lookupKey, hk, ih, hk']
      · simp [List.filterMap_cons, hc, ih, hk']

theorem mem_filterMap_ite {α : Type} (ids : List String) (P : String → Prop)
    [DecidablePred P] (v : α) (p : String × α) :
    p ∈ ids.filterMap (fun i => if P i then some (i, v) else none)
      ↔ p.1 ∈ ids ∧ P p.1 ∧ p.2 = v := by
  obtain ⟨p1, p2⟩ := p
  induction ids with
  | nil => simp
  | cons hd tl ih =>
    by_cases hc : P hd
    · simp only [List.filterMap_cons, if_pos hc, List.mem_cons, ih]
      constructor
      · rintro (h1 | ⟨h1, h2, h3⟩)
        · injection h1 with ha hb
          subst ha
          subst hb
          exact ⟨Or.inl rfl, hc, rfl⟩
        · exact ⟨Or.inr h1, h2, h3⟩
      · rintro ⟨h1 | h1, h2, h3⟩
        · subst h1
          subst h3
          exact Or.inl rfl
        · exact Or.inr ⟨h1, h2, h3⟩
    · simp only [List.filterMap_cons, if_neg hc, ih, List.mem_cons]
      constructor
      · rintro ⟨h1, h2, h3⟩
        exact ⟨Or.inr h1, h2, h3⟩
      · rintro ⟨h1 | h1, h2, h3⟩
        · subst h1
          exact absurd h2 hc
        · exact ⟨h1, h2, h3⟩

/-! ### Counting and matching bridges -/

theorem countP_mem_eq_length_iff {keys names : List String}
    (hkeys : keys.Nodup) (hnames : names.Nodup) :
    (keys.countP (fun n => decide (n ∈ names)) = names.length)
      ↔ ∀ n ∈ names, n ∈ keys := by
  rw [List.countP_eq_length_filter]
  have hfnd : (keys.filter (fun n => decide (n ∈ names))).Nodup := hkeys.filter _
  have hfsub : (keys.filter (fun n => decide (n ∈ names))) ⊆ names := by
    intro x hx
    simpa using List.of_mem_filter hx
  have hsubperm : (keys.filter (fun n => decide (n ∈ names))).Subperm names :=
    hfnd.subperm hfsub
  constructor
  · intro hlen
    obtain ⟨l', hperm, hsub⟩ := hsubperm
    have hl : l'.length = names.length := by rw [hperm.length_eq, hlen]
    have hln : l' = names := hsub.eq_of_length hl
    intro n hn
    have hnl : n ∈ l' := by rw [hln]; exact hn
    have hnf : n ∈ keys.filter (fun n => decide (n ∈ names)) := hperm.mem_iff.mp hnl
    exact List.mem_of_mem_filter hnf
  · intro hall
    have hsub2 : names ⊆ keys.filter (fun n => decide (n ∈ names)) := by
      intro n hn
      exact List.mem_filter.mpr ⟨hall n hn, by simpa using hn⟩
    exact le_antisymm hsubperm.length_le (hnames.subperm hsub2).length_le

theorem matchesB_iff (names : List String) (e : Entity) :
    matchesB names e = true ↔
      ∀ n ∈ names, (lookupKey e.components n).isSome = true := by
  simp [matchesB, List.all_eq_true]

theorem matchesInWorldB_iff (w : ECS) (names : List String) (eid : EntityId) :
    matchesInWorldB w names eid = true ↔
      ∃ e, lookupKey w.entities eid = some e ∧
        ∀ n ∈ names, (lookupKey e.components n).isSome = true := by
  cases h : lookupKey w.entities eid with
  | some e => simp [matchesInWorldB, h, matchesB_iff]
  | none => simp [matchesInWorldB, h]

theorem holdsB_iff (w : ECS) (eid : EntityId) (n : String) :
    holdsB w eid n = true ↔
      ∃ e, lookupKey w.entities eid = some e ∧
        (lookupKey e.components n).isSome = true := by
  cases h : lookupKey w.entities eid with
  | some e => simp [holdsB, h]
  | none => simp [holdsB, h]

theorem matchesB_setKey_mono {names : List String} {e : Entity} {cname : String}
    {comp : Component} (h : matchesB names e = true) :
    matchesB names { e with components := setKey e.components cname comp } = true := by
  rw [matchesB_iff] at h ⊢
  intro n hn
  by_cases hnc : n = cname
  · subst hnc
    simp [lookupKey_setKey_self]
  · rw [lookupKey_setKey_ne _ _ hnc]
    exact h n hn

theorem matchesB_congr_lookup (names : List String) (e e' : Entity) :
    (∀ n ∈ names, lookupKey e'.components n = lookupKey e.components n) →
    matchesB names e' = matchesB names e := by
  induction names with
  | nil => intro h; rfl
  | cons hd tl ih =>
    intro h
    simp only [matchesB, List.all_cons]
    rw [h hd (List.mem_cons_self hd tl)]
    have htl := ih (fun n hn => h n (List.mem_cons_of_mem _ hn))
    simp only [matchesB] at htl
    rw [htl]

theorem matchesB_delKey_notMem {names : List String} {e : Entity} {cname : String}
    (hout : ¬ cname ∈ names) :
    matchesB names { e with components := delKey e.components cname }
      = matchesB names e := by
  refine matchesB_congr_lookup names e _ ?_
  intro n hn
  have hnc : ¬ n = cname := fun hh => hout (hh ▸ hn)
  exact lookupKey_delKey_ne _ hnc

theorem QInv_lookup_iff {w : ECS} {q : Query} (hinv : QInv w q) (eid : EntityId) :
    (lookupKey q.entities eid).isSome = true ↔
      matchesInWorldB w q.componentNames eid = true := by
  constructor
  · intro h
    obtain ⟨v, hv⟩ := Option.isSome_iff_exists.mp h
    exact hinv.1 (eid, v) (lookupKey_some_mem hv)
  · intro h
    obtain ⟨e, he, hall⟩ := (matchesInWorldB_iff w q.componentNames eid).mp h
    exact hinv.2 (eid, e) (lookupKey_some_mem he) ((matchesB_iff _ _).mpr hall)

theorem componentAdded_count_iff {q : Query} {e : Entity}
    (hlen : q.resolved.length = q.componentNames.length)
    (hke : (e.components.map Prod.fst).Nodup) (hnames : q.componentNames.Nodup) :
    ((e.components.map Prod.fst).countP (fun n => decide (n ∈ q.componentNames))
        = q.resolved.length)
      ↔ matchesB q.componentNames e = true := by
  rw [hlen, countP_mem_eq_length_iff hke hnames, matchesB_iff]
  constructor
  · intro h n hn
    exact (lookupKey_isSome_iff e.components n).mpr (h n hn)
  · intro h n hn
    exact (lookupKey_isSome_iff e.components n).mp (h n hn)

theorem componentAdded_projections (q : Query) (e : Entity) :
    (componentAddedToEntity q e).componentNames = q.componentNames ∧
    (componentAddedToEntity q e).resolved = q.resolved ∧
    (componentAddedToEntity q e).logic = q.logic := by
  by_cases h : (e.components.map Prod.fst).countP (fun n => decide (n ∈ q.componentNames))
      = q.resolved.length
  · simp only [componentAddedToEntity]
    rw [if_pos h]
    exact ⟨rfl, rfl, rfl⟩
  · simp only [componentAddedToEntity]
    rw [if_neg h]
    exact ⟨rfl, rfl, rfl⟩

theorem componentAdded_match {q : Query} {e : Entity}
    (h : (e.components.map Prod.fst).countP (fun n => decide (n ∈ q.componentNames))
        = q.resolved.length) :
    (componentAddedToEntity q e).entities
      = setKey q.entities e.id (CacheVal.ventity e.id) := by
  simp only [componentAddedToEntity]
  rw [if_pos h]

theorem componentAdded_nomatch {q : Query} {e : Entity}
    (h : ¬ (e.components.map Prod.fst).countP (fun n => decide (n ∈ q.componentNames))
        = q.resolved.length) :
    componentAddedToEntity q e = q := by
  simp only [componentAddedToEntity]
  rw [if_neg h]

theorem refreshOk_lookup (w : ECS) (q : Query) (eid : EntityId) :
    lookupKey (refreshOk w q).entities eid
      = if eid ∈ w.entities.map Prod.fst ∧
           q.resolved.countP (fun r => presHit w r eid) = q.resolved.length
        then some CacheVal.vtrue else none := by
  unfold refreshOk
  exact lookupKey_filterMap_ite (w.entities.map Prod.fst) _ CacheVal.vtrue eid

theorem refreshOk_projections (w : ECS) (q : Query) :
    (refreshOk w q).componentNames = q.componentNames ∧
    (refreshOk w q).resolved = q.resolved ∧
    (refreshOk w q).logic = q.logic := by
  unfold refreshOk
  exact ⟨rfl, rfl, rfl⟩

theorem countP_resolved_iff {w : ECS} {q : Query}
    (hres : q.resolved = q.componentNames.map some) (eid : EntityId) :
    (q.resolved.countP (fun r => presHit w r eid) = q.resolved.length)
      ↔ ∀ n ∈ q.componentNames, presHit w (some n) eid = true := by
  rw [hres, List.countP_map, List.length_map, List.countP_eq_length]
  simp [Function.comp]

theorem presHit_iff_holdsB {w : ECS} {n : String} {pres : List EntityId}
    (hp : lookupKey w.components n = some pres)
    (hwfp : PresenceWF w (n, pres)) (eid : EntityId) :
    presHit w (some n) eid = true ↔ holdsB w eid n = true := by
  simp only [presHit, hp]
  constructor
  · intro h
    exact hwfp.2.1 eid (by simpa using h)
  · intro h
    obtain ⟨e, he, hsome⟩ := (holdsB_iff w eid n).mp h
    have hmem : eid ∈ pres := hwfp.2.2 (eid, e) (lookupKey_some_mem he) hsome
    simpa using hmem

theorem refreshOk_QInv {w : ECS} {q : Query} (hwf : WF w) (hq : QWF w q) :
    QInv w (refreshOk w q) := by
  obtain ⟨hndE, hndC, hndQ, hEnt, hPres, hQs⟩ := hwf
  obtain ⟨hres, hreg⟩ := hq
  constructor
  · intro pr hpr
    simp only [refreshOk] at hpr
    rw [mem_filterMap_ite] at hpr
    obtain ⟨hmem, hcnt, hval⟩ := hpr
    have hsome : (lookupKey w.entities pr.1).isSome = true :=
      (lookupKey_isSome_iff _ _).mpr hmem
    obtain ⟨e, he⟩ := Option.isSome_iff_exists.mp hsome
    rw [show (refreshOk w q).componentNames = q.componentNames from rfl]
    rw [matchesInWorldB_iff]
    refine ⟨e, he, ?_⟩
    intro n hn
    have hph : presHit w (some n) pr.1 = true :=
      (countP_resolved_iff hres pr.1).mp hcnt n hn
    obtain ⟨pres, hp⟩ := Option.isSome_iff_exists.mp (hreg n hn)
    have hh : holdsB w pr.1 n = true :=
      (presHit_iff_holdsB hp (hPres (n, pres) (lookupKey_some_mem hp)) pr.1).mp hph
    obtain ⟨e', he', hsome'⟩ := (holdsB_iff w pr.1 n).mp hh
    rw [he] at he'
    cases he'
    exact hsome'
  · intro p hp hmatch
    rw [show (refreshOk w q).componentNames = q.componentNames from rfl] at hmatch
    rw [refreshOk_lookup]
    have hmem : p.1 ∈ w.entities.map Prod.fst := List.mem_map_of_mem Prod.fst hp
    have hlook : lookupKey w.entities p.1 = some p.2 := lookupKey_of_mem_nodup hndE hp
    have hcnt : q.resolved.countP (fun r => presHit w r p.1) = q.resolved.length := by
      rw [countP_resolved_iff hres]
      intro n hn
      obtain ⟨pres, hpn⟩ := Option.isSome_iff_exists.mp (hreg n hn)
      refine (presHit_iff_holdsB hpn (hPres (n, pres) (lookupKey_some_mem hpn)) p.1).mpr ?_
      rw [holdsB_iff]
      exact ⟨p.2, hlook, (matchesB_iff _ _).mp hmatch n hn⟩
    simp [hmem, hcnt]

/-! ### Attach: decomposition and invariant preservation -/

theorem isSome_lookupKey_setKey_of {α : Type} {m : List (String × α)} {x : String}
    (k : String) (v : α) (h : (lookupKey m x).isSome = true) :
    (lookupKey (setKey m k v) x).isSome = true := by
  by_cases hxk : x = k
  · subst hxk
    rw [lookupKey_setKey_self]
    rfl
  · rw [lookupKey_setKey_ne _ _ hxk]
    exact h

theorem addComponent_ok {w : ECS} {eid : EntityId} {cname : String}
    {props : List (String × Int)} {pres : List EntityId} {e : Entity}
    (hc : lookupKey w.components cname = some pres)
    (he : lookupKey w.entities eid = some e) :
    addComponent w eid cname props =
      ({ w with
          entities := setKey w.entities eid (attachEntity e cname props eid)
          components := setKey w.components cname (insertId pres eid)
          queries := w.queries.map (fun pr =>
            (pr.1, componentAddedToEntity pr.2 (attachEntity e cname props eid)))
          eventLog := w.eventLog ++ [(eid, cname)] }, none) := by
  unfold addComponent
  rw [hc, he]
  rfl

theorem addComponent_err_unregistered {w : ECS} {eid : EntityId} {cname : String}
    {props : List (String × Int)} (hc : lookupKey w.components cname = none) :
    addComponent w eid cname props = (w, some JsError.unregistered) := by
  unfold addComponent
  rw [hc]

theorem addComponent_no_entity {w : ECS} {eid : EntityId} {cname : String}
    {props : List (String × Int)} {pres : List EntityId}
    (hc : lookupKey w.components cname = some pres)
    (he : lookupKey w.entities eid = none) :
    addComponent w eid cname props = (w, none) := by
  unfold addComponent
  rw [hc, he]

theorem attach_WF {w : ECS} (eid : EntityId) (cname : String)
    (props : List (String × Int)) (hwf : WF w) :
    WF (addComponent w eid cname props).1 := by
  match hc : lookupKey w.components cname with
  | none =>
    rw [addComponent_err_unregistered hc]
    exact hwf
  | some pres =>
    match he : lookupKey w.entities eid with
    | none =>
      rw [addComponent_no_entity hc he]
      exact hwf
    | some e =>
      rw [addComponent_ok hc he]
      obtain ⟨hndE, hndC, hndQ, hEnt, hPres, hQs⟩ := hwf
      have hEe := hEnt (eid, e) (lookupKey_some_mem he)
      have heid : e.id = eid := hEe.1
      have hke : (e.components.map Prod.fst).Nodup := hEe.2.1
      have hregs : ∀ pr ∈ e.components, (lookupKey w.components pr.1).isSome = true :=
        hEe.2.2
      have hCm : (cname, pres) ∈ w.components := lookupKey_some_mem hc
      refine ⟨?_, ?_, ?_, ?_, ?_, ?_⟩
      · dsimp only
        rw [map_fst_setKey_isSome _ (by simp [he])]
        exact hndE
      · dsimp only
        exact nodup_map_fst_setKey _ hndC
      · dsimp only
        rw [map_fst_map_pair]
        exact hndQ
      · dsimp only
        intro p hp
        rcases (mem_setKey_iff hndE p).mp hp with rfl | ⟨hold, hne⟩
        · refine ⟨heid, nodup_map_fst_setKey _ hke, ?_⟩
          intro pr hpr
          rcases mem_setKey_weak hpr with rfl | hin
          · dsimp only
            rw [lookupKey_setKey_self]
            rfl
          · exact isSome_lookupKey_setKey_of _ _ (hregs pr hin)
        · obtain ⟨hid2, hnd2, hreg2⟩ := hEnt p hold
          refine ⟨hid2, hnd2, ?_⟩
          intro pr hpr
          exact isSome_lookupKey_setKey_of _ _ (hreg2 pr hpr)
      · dsimp only
        intro p hp
        rcases (mem_setKey_iff hndC p).mp hp with rfl | ⟨hold, hne⟩
        · refine ⟨nodup_insertId _ (hPres (cname, pres) hCm).1, ?_, ?_⟩
          · intro x hx
            by_cases hxe : x = eid
            · subst hxe
              unfold holdsB
              dsimp only
              rw [lookupKey_setKey_self]
              show (lookupKey (setKey e.components cname _) cname).isSome = true
              rw [lookupKey_setKey_self]
              rfl
            · rcases (mem_insertId pres eid x).mp hx with hxp | hxeid
              · have hold2 := (hPres (cname, pres) hCm).2.1 x hxp
                unfold holdsB at hold2 ⊢
                dsimp only
                rw [lookupKey_setKey_ne _ _ hxe]
                exact hold2
              · exact absurd hxeid hxe
          · intro q' hq' hsome
            dsimp only at hq'
            rcases (mem_setKey_iff hndE q').mp hq' with rfl | ⟨holdq, hneq⟩
            · exact (mem_insertId pres eid eid).mpr (Or.inr rfl)
            · have hx := (hPres (cname, pres) hCm).2.2 q' holdq hsome
              exact (mem_insertId pres eid q'.1).mpr (Or.inl hx)
        · obtain ⟨hnd3, hfwd, hbwd⟩ := hPres p hold
          refine ⟨hnd3, ?_, ?_⟩
          · intro x hx
            have h1 := hfwd x hx
            by_cases hxe : x = eid
            · subst hxe
              obtain ⟨e0, he0, hsome0⟩ := (holdsB_iff w x p.1).mp h1
              rw [he] at he0
              cases he0
              rw [holdsB_iff]
              refine ⟨attachEntity e cname props x, ?_, ?_⟩
              · dsimp only
                exact lookupKey_setKey_self _ _ _
              · show (lookupKey (setKey e.components cname _) p.1).isSome = true
                rw [lookupKey_setKey_ne _ _ hne]
                exact hsome0
            · unfold holdsB at h1 ⊢
              dsimp only
              rw [lookupKey_setKey_ne _ _ hxe]
              exact h1
          · intro q' hq' hsome
            dsimp only at hq'
            rcases (mem_setKey_iff hndE q').mp hq' with rfl | ⟨holdq, hneq⟩
            · have hsome' : (lookupKey e.components p.1).isSome = true := by
                have hs := hsome
                rw [show (attachEntity e cname props eid).components
                    = setKey e.components cname { props := props, entity := some eid }
                    from rfl] at hs
                rwa [lookupKey_setKey_ne _ _ hne] at hs
              exact hbwd (eid, e) (lookupKey_some_mem he) hsome'
            · exact hbwd q' holdq hsome
      · dsimp only
        intro p hp
        obtain ⟨pr0, hpr0, rfl⟩ := List.mem_map.mp hp
        obtain ⟨hres0, hreg0⟩ := hQs pr0 hpr0
        constructor
        · show (componentAddedToEntity pr0.2 _).resolved
            = (componentAddedToEntity pr0.2 _).componentNames.map some
          rw [(componentAdded_projections pr0.2 _).1, (componentAdded_projections pr0.2 _).2.1]
          exact hres0
        · intro n hn
          rw [(componentAdded_projections pr0.2 _).1] at hn
          exact isSome_lookupKey_setKey_of _ _ (hreg0 n hn)

theorem attach_QInv {w : ECS} {k : String} {q : Query} (eid : EntityId) (cname : String)
    (props : List (String × Int)) (hwf : WF w)
    (hk : lookupKey w.queries k = some q)
    (hnames : q.componentNames.Nodup) (hinv : QInv w q) :
    ∃ q', lookupKey (addComponent w eid cname props).1.queries k = some q' ∧
      q'.componentNames = q.componentNames ∧ q'.resolved = q.resolved ∧
      QInv (addComponent w eid cname props).1 q' := by
  match hc : lookupKey w.components cname with
  | none =>
    rw [addComponent_err_unregistered hc]
    exact ⟨q, hk, rfl, rfl, hinv⟩
  | some pres =>
    match he : lookupKey w.entities eid with
    | none =>
      rw [addComponent_no_entity hc he]
      exact ⟨q, hk, rfl, rfl, hinv⟩
    | some e =>
      rw [addComponent_ok hc he]
      obtain ⟨hndE, hndC, hndQ, hEnt, hPres, hQs⟩ := hwf
      obtain ⟨hres, hreg⟩ := hQs (k, q) (lookupKey_some_mem hk)
      have hEe := hEnt (eid, e) (lookupKey_some_mem he)
      have heid : e.id = eid := hEe.1
      have hkeNew : ((attachEntity e cname props eid).components.map Prod.fst).Nodup :=
        nodup_map_fst_setKey _ hEe.2.1
      have heidNew : (attachEntity e cname props eid).id = eid := heid
      have hlen : q.resolved.length = q.componentNames.length := by
        rw [hres, List.length_map]
      have hlook : lookupKey
          (w.queries.map (fun pr =>
            (pr.1, componentAddedToEntity pr.2 (attachEntity e cname props eid)))) k
          = some (componentAddedToEntity q (attachEntity e cname props eid)) := by
        rw [lookupKey_map_pair, hk]
        rfl
      refine ⟨componentAddedToEntity q (attachEntity e cname props eid), hlook,
        (componentAdded_projections _ _).1, (componentAdded_projections _ _).2.1, ?_⟩
      by_cases hmatch : ((attachEntity e cname props eid).components.map Prod.fst).countP
          (fun n => decide (n ∈ q.componentNames)) = q.resolved.length
      · -- the attached entity now matches and is inserted
        have hmB : matchesB q.componentNames (attachEntity e cname props eid) = true :=
          (componentAdded_count_iff hlen hkeNew hnames).mp hmatch
        constructor
        · intro pr hpr
          rw [componentAdded_match hmatch, heidNew] at hpr
          rw [(componentAdded_projections _ _).1]
          rcases mem_setKey_weak hpr with rfl | hin
          · rw [matchesInWorldB_iff]
            refine ⟨attachEntity e cname props eid, ?_, (matchesB_iff _ _).mp hmB⟩
            dsimp only
            exact lookupKey_setKey_self _ _ _
          · have hold := hinv.1 pr hin
            by_cases hpe : pr.1 = eid
            · rw [matchesInWorldB_iff] at hold ⊢
              obtain ⟨e0, he0, hall0⟩ := hold
              rw [hpe, he] at he0
              cases he0
              refine ⟨attachEntity e cname props eid, ?_, (matchesB_iff _ _).mp hmB⟩
              dsimp only
              rw [hpe]
              exact lookupKey_setKey_self _ _ _
            · rw [matchesInWorldB_iff] at hold ⊢
              obtain ⟨e0, he0, hall0⟩ := hold
              refine ⟨e0, ?_, hall0⟩
              dsimp only
              rw [lookupKey_setKey_ne _ _ hpe]
              exact he0
        · intro p hp hm
          dsimp only at hp
          rw [componentAdded_match hmatch, heidNew]
          rcases (mem_setKey_iff hndE p).mp hp with rfl | ⟨hold, hne⟩
          · dsimp only
            rw [lookupKey_setKey_self]
            rfl
          · rw [(componentAdded_projections _ _).1] at hm
            have hs := hinv.2 p hold hm
            exact isSome_lookupKey_setKey_of _ _ hs
      · -- no insertion: the cache is untouched and the entity still fails the match
        rw [componentAdded_nomatch hmatch]
        constructor
        · intro pr hpr
          have hold := hinv.1 pr hpr
          by_cases hpe : pr.1 = eid
          · rw [matchesInWorldB_iff] at hold
            obtain ⟨e0, he0, hall0⟩ := hold
            rw [hpe, he] at he0
            cases he0
            have hmono : matchesB q.componentNames (attachEntity e cname props eid) = true :=
              matchesB_setKey_mono ((matchesB_iff _ _).mpr hall0)
            exact absurd ((componentAdded_count_iff hlen hkeNew hnames).mpr hmono) hmatch
          · rw [matchesInWorldB_iff] at hold ⊢
            obtain ⟨e0, he0, hall0⟩ := hold
            refine ⟨e0, ?_, hall0⟩
            dsimp only
            rw [lookupKey_setKey_ne _ _ hpe]
            exact he0
        · intro p hp hm
          dsimp only at hp
          rcases (mem_setKey_iff hndE p).mp hp with rfl | ⟨hold, hne⟩
          · exact absurd ((componentAdded_count_iff hlen hkeNew hnames).mpr hm) hmatch
          · exact hinv.2 p hold hm

/-! ### Detach: the query-refresh loop -/

theorem refresh_ok_of_allSome {w : ECS} {q : Query}
    (h : q.resolved.all Option.isSome = true) :
    refresh w q = Except.ok (refreshOk w q) := by
  unfold refresh
  rw [if_neg]
  rintro ⟨-, hany⟩
  obtain ⟨r, hr, hN⟩ := List.any_eq_true.mp hany
  have hs := List.all_eq_true.mp h r hr
  cases r
  · simp at hs
  · simp at hN

theorem refreshOk_congr {v w : ECS} (q : Query) (hent : v.entities = w.entities)
    (hcomp : v.components = w.components) : refreshOk v q = refreshOk w q := by
  have hph : ∀ r eid, presHit v r eid = presHit w r eid := by
    intro r eid
    unfold presHit
    rw [hcomp]
  unfold refreshOk
  rw [hent]
  simp only [hph]

theorem refreshQueries_nil (w : ECS) (cname : String) :
    refreshQueries w [] cname = (w, none) := rfl

theorem refreshQueries_cons (w : ECS) (k : String) (tl : List String) (cname : String) :
    refreshQueries w (k :: tl) cname =
      match lookupKey w.queries k with
      | none => refreshQueries w tl cname
      | some q =>
        if cname ∈ q.componentNames then
          match refresh w q with
          | Except.ok q' =>
            refreshQueries { w with queries := setKey w.queries k q' } tl cname
          | Except.error err =>
            ({ w with queries := setKey w.queries k { q with entities := [] } }, some err)
        else refreshQueries w tl cname := rfl

theorem refreshQueries_ok (cname : String) :
    ∀ (ks : List String) (w : ECS),
      (∀ p ∈ w.queries, p.2.resolved.all Option.isSome = true) → ks.Nodup →
      (refreshQueries w ks cname).2 = none ∧
      (refreshQueries w ks cname).1.entities = w.entities ∧
      (refreshQueries w ks cname).1.components = w.components ∧
      (refreshQueries w ks cname).1.systems = w.systems ∧
      (refreshQueries w ks cname).1.eventLog = w.eventLog ∧
      (refreshQueries w ks cname).1.hookRuns = w.hookRuns ∧
      (refreshQueries w ks cname).1.queries.map Prod.fst = w.queries.map Prod.fst ∧
      ∀ k', lookupKey (refreshQueries w ks cname).1.queries k'
        = (lookupKey w.queries k').map (fun qq =>
            if k' ∈ ks ∧ cname ∈ qq.componentNames then refreshOk w qq else qq) := by
  intro ks
  induction ks with
  | nil =>
    intro w hq hnd
    refine ⟨rfl, rfl, rfl, rfl, rfl, rfl, rfl, ?_⟩
    intro k'
    unfold refreshQueries
    cases lookupKey w.queries k' <;> simp
  | cons k tl ih =>
    intro w hq hnd
    rw [List.nodup_cons] at hnd
    obtain ⟨hknotin, hndtl⟩ := hnd
    match hk : lookupKey w.queries k with
    | none =>
      have hred : refreshQueries w (k :: tl) cname = refreshQueries w tl cname := by
        rw [refreshQueries_cons, hk]
      rw [hred]
      obtain ⟨h1, h2, h3, h4, h5, h6, h7, h8⟩ := ih w hq hndtl
      refine ⟨h1, h2, h3, h4, h5, h6, h7, ?_⟩
      intro k'
      rw [h8 k']
      by_cases hkk : k' = k
      · subst hkk
        rw [hk]
        rfl
      · cases hq' : lookupKey w.queries k' with
        | none => rfl
        | some qq =>
          simp only [Option.map_some']
          by_cases hcond : k' ∈ tl ∧ cname ∈ qq.componentNames
          · rw [if_pos hcond, if_pos ⟨List.mem_cons_of_mem _ hcond.1, hcond.2⟩]
          · rw [if_neg hcond, if_neg]
            rintro ⟨hin2, hnm⟩
            rcases List.mem_cons.mp hin2 with rfl | hin3
            · exact hkk rfl
            · exact hcond ⟨hin3, hnm⟩
    | some q =>
      by_cases hmem : cname ∈ q.componentNames
      · have hok : refresh w q = Except.ok (refreshOk w q) :=
          refresh_ok_of_allSome (hq (k, q) (lookupKey_some_mem hk))
        have hred : refreshQueries w (k :: tl) cname
            = refreshQueries { w with queries := setKey w.queries k (refreshOk w q) }
                tl cname := by
          rw [refreshQueries_cons]
          simp only [hk]
          rw [if_pos hmem, hok]
        rw [hred]
        have hq1 : ∀ p ∈ ({ w with
            queries := setKey w.queries k (refreshOk w q) } : ECS).queries,
            p.2.resolved.all Option.isSome = true := by
          intro p hp
          rcases mem_setKey_weak hp with rfl | hin
          · show (refreshOk w q).resolved.all Option.isSome = true
            rw [(refreshOk_projections w q).2.1]
            exact hq (k, q) (lookupKey_some_mem hk)
          · exact hq p hin
        obtain ⟨h1, h2, h3, h4, h5, h6, h7, h8⟩ :=
          ih { w with queries := setKey w.queries k (refreshOk w q) } hq1 hndtl
        refine ⟨h1, h2, h3, h4, h5, h6, ?_, ?_⟩
        · rw [h7]
          exact map_fst_setKey_isSome _ (by simp [hk])
        · intro k'
          rw [h8 k']
          by_cases hkk : k' = k
          · subst hkk
            have hsk : lookupKey ({ w with
                queries := setKey w.queries k' (refreshOk w q) } : ECS).queries k'
                = some (refreshOk w q) := lookupKey_setKey_self _ _ _
            rw [hsk, hk]
            simp only [Option.map_some']
            rw [if_neg (fun hcon => hknotin hcon.1),
              if_pos ⟨List.mem_cons_self _ _, hmem⟩]
          · have hlkk : lookupKey ({ w with
                queries := setKey w.queries k (refreshOk w q) } : ECS).queries k'
                = lookupKey w.queries k' := lookupKey_setKey_ne _ _ hkk
            rw [hlkk]
            cases hq' : lookupKey w.queries k' with
            | none => rfl
            | some qq =>
              simp only [Option.map_some']
              by_cases hcond : k' ∈ tl ∧ cname ∈ qq.componentNames
              · rw [if_pos hcond, if_pos ⟨List.mem_cons_of_mem _ hcond.1, hcond.2⟩]
                exact congrArg some (refreshOk_congr qq rfl rfl)
              · rw [if_neg hcond, if_neg]
                rintro ⟨hin2, hnm⟩
                rcases List.mem_cons.mp hin2 with rfl | hin3
                · exact hkk rfl
                · exact hcond ⟨hin3, hnm⟩
      · have hred : refreshQueries w (k :: tl) cname = refreshQueries w tl cname := by
          rw [refreshQueries_cons, hk]
          show (if cname ∈ q.componentNames then _ else refreshQueries w tl cname) = _
          rw [if_neg hmem]
        rw [hred]
        obtain ⟨h1, h2, h3, h4, h5, h6, h7, h8⟩ := ih w hq hndtl
        refine ⟨h1, h2, h3, h4, h5, h6, h7, ?_⟩
        intro k'
        rw [h8 k']
        cases hq' : lookupKey w.queries k' with
        | none => rfl
        | some qq =>
          simp only [Option.map_some']
          by_cases hkk : k' = k
          · subst hkk
            rw [hk] at hq'
            cases hq'
            rw [if_neg (fun hcon => hmem hcon.2)]
            rw [if_neg (fun hcon => hmem hcon.2)]
          · by_cases hcond : k' ∈ tl ∧ cname ∈ qq.componentNames
            · rw [if_pos hcond, if_pos ⟨List.mem_cons_of_mem _ hcond.1, hcond.2⟩]
            · rw [if_neg hcond, if_neg]
              rintro ⟨hin2, hnm⟩
              rcases List.mem_cons.mp hin2 with rfl | hin3
              · exact hkk rfl
              · exact hcond ⟨hin3, hnm⟩

theorem holdsB_congr {v w : ECS} (h : v.entities = w.entities) (x : EntityId)
    (n : String) : holdsB v x n = holdsB w x n := by
  unfold holdsB
  rw [h]

theorem EntityWF_congr {v w : ECS} (h : v.components = w.components)
    (p : EntityId × Entity) : EntityWF w p → EntityWF v p := by
  unfold EntityWF
  rw [h]
  exact id

theorem PresenceWF_congr {v w : ECS} (h : v.entities = w.entities)
    (p : String × List EntityId) : PresenceWF w p → PresenceWF v p := by
  rintro ⟨a, b, c⟩
  refine ⟨a, ?_, ?_⟩
  · intro x hx
    rw [holdsB_congr h]
    exact b x hx
  · intro q hq hsq
    rw [h] at hq
    exact c q hq hsq

theorem QWF_congr {v w : ECS} (h : v.components = w.components) (q : Query) :
    QWF w q → QWF v q := by
  unfold QWF
  rw [h]
  exact id

theorem QInv_congr {v w : ECS} (h : v.entities = w.entities) (q : Query) :
    QInv w q → QInv v q := by
  rintro ⟨a, b⟩
  constructor
  · intro pr hpr
    have ha := a pr hpr
    unfold matchesInWorldB at ha ⊢
    rw [h]
    exact ha
  · intro p hp
    rw [h] at hp
    exact b p hp

theorem removeComponent_no_entity {w : ECS} {eid : EntityId} (cname : String)
    (he : lookupKey w.entities eid = none) :
    removeComponent w eid cname = (w, none) := by
  unfold removeComponent
  rw [he]

theorem removeComponent_not_held {w : ECS} {eid : EntityId} {cname : String} {e : Entity}
    (he : lookupKey w.entities eid = some e)
    (hnot : lookupKey e.components cname = none) :
    removeComponent w eid cname = (w, some JsError.referenceError) := by
  unfold removeComponent
  rw [he]
  show (if (lookupKey e.components cname).isSome = true then _
    else (w, some JsError.referenceError)) = _
  rw [if_neg (by simp [hnot])]

theorem removeComponent_ok {w : ECS} {eid : EntityId} {cname : String} {e : Entity}
    {pres : List EntityId} {comp : Component}
    (he : lookupKey w.entities eid = some e)
    (hheld : lookupKey e.components cname = some comp)
    (hc : lookupKey w.components cname = some pres) :
    removeComponent w eid cname
      = refreshQueries
          { w with
            entities := setKey w.entities eid (detachEntity e cname)
            components := setKey w.components cname (removeId pres eid) }
          (w.queries.map Prod.fst) cname := by
  unfold removeComponent
  rw [he]
  show (if (lookupKey e.components cname).isSome = true then _ else _) = _
  rw [if_pos (by simp [hheld]), hc]
  rfl

theorem refreshQueries_WF {w : ECS} (cname : String) (hwf : WF w) :
    WF (refreshQueries w (w.queries.map Prod.fst) cname).1 := by
  obtain ⟨hndE, hndC, hndQ, hEnt, hPres, hQs⟩ := hwf
  have hall : ∀ p ∈ w.queries, p.2.resolved.all Option.isSome = true := by
    intro p hp
    obtain ⟨hres, -⟩ := hQs p hp
    rw [hres]
    simp [List.all_eq_true]
  obtain ⟨h1, h2, h3, h4, h5, h6, h7, h8⟩ :=
    refreshQueries_ok cname (w.queries.map Prod.fst) w hall hndQ
  refine ⟨?_, ?_, ?_, ?_, ?_, ?_⟩
  · rw [h2]
    exact hndE
  · rw [h3]
    exact hndC
  · rw [h7]
    exact hndQ
  · intro p hp
    rw [h2] at hp
    exact EntityWF_congr h3 p (hEnt p hp)
  · intro p hp
    rw [h3] at hp
    exact PresenceWF_congr h2 p (hPres p hp)
  · intro p hp
    have hndR : ((refreshQueries w (w.queries.map Prod.fst) cname).1.queries.map
        Prod.fst).Nodup := by
      rw [h7]
      exact hndQ
    have hlk : lookupKey (refreshQueries w (w.queries.map Prod.fst) cname).1.queries p.1
        = some p.2 := lookupKey_of_mem_nodup hndR hp
    rw [h8 p.1] at hlk
    cases hq0 : lookupKey w.queries p.1 with
    | none =>
      rw [hq0] at hlk
      simp at hlk
    | some q0 =>
      rw [hq0] at hlk
      simp only [Option.map_some'] at hlk
      injection hlk with hlk2
      have hq0wf := hQs (p.1, q0) (lookupKey_some_mem hq0)
      by_cases hcond : p.1 ∈ w.queries.map Prod.fst ∧ cname ∈ q0.componentNames
      · rw [if_pos hcond] at hlk2
        rw [← hlk2]
        constructor
        · rw [(refreshOk_projections w q0).2.1, (refreshOk_projections w q0).1]
          exact hq0wf.1
        · intro n hn
          rw [(refreshOk_projections w q0).1] at hn
          rw [h3]
          exact hq0wf.2 n hn
      · rw [if_neg hcond] at hlk2
        rw [← hlk2]
        constructor
        · exact hq0wf.1
        · intro n hn
          rw [h3]
          exact hq0wf.2 n hn

theorem detach_mid_WF {w : ECS} {eid : EntityId} {cname : String} {e : Entity}
    {pres : List EntityId} {comp : Component}
    (he : lookupKey w.entities eid = some e)
    (hheld : lookupKey e.components cname = some comp)
    (hc : lookupKey w.components cname = some pres)
    (hwf : WF w) :
    WF { w with
      entities := setKey w.entities eid (detachEntity e cname)
      components := setKey w.components cname (removeId pres eid) } := by
  obtain ⟨hndE, hndC, hndQ, hEnt, hPres, hQs⟩ := hwf
  have hEe := hEnt (eid, e) (lookupKey_some_mem he)
  have heid : e.id = eid := hEe.1
  have hke : (e.components.map Prod.fst).Nodup := hEe.2.1
  have hregs : ∀ pr ∈ e.components, (lookupKey w.components pr.1).isSome = true := hEe.2.2
  have hCm : (cname, pres) ∈ w.components := lookupKey_some_mem hc
  refine ⟨?_, ?_, ?_, ?_, ?_, ?_⟩
  · dsimp only
    rw [map_fst_setKey_isSome _ (by simp [he])]
    exact hndE
  · dsimp only
    exact nodup_map_fst_setKey _ hndC
  · exact hndQ
  · dsimp only
    intro p hp
    rcases (mem_setKey_iff hndE p).mp hp with rfl | ⟨hold, hne⟩
    · refine ⟨heid, nodup_map_fst_delKey _ hke, ?_⟩
      intro pr hpr
      have hin : pr ∈ e.components := ((mem_delKey _ _ _).mp hpr).1
      exact isSome_lookupKey_setKey_of _ _ (hregs pr hin)
    · obtain ⟨hid2, hnd2, hreg2⟩ := hEnt p hold
      refine ⟨hid2, hnd2, ?_⟩
      intro pr hpr
      exact isSome_lookupKey_setKey_of _ _ (hreg2 pr hpr)
  · dsimp only
    intro p hp
    rcases (mem_setKey_iff hndC p).mp hp with rfl | ⟨hold, hne⟩
    · refine ⟨nodup_removeId _ (hPres (cname, pres) hCm).1, ?_, ?_⟩
      · intro x hx
        obtain ⟨hxp, hxe⟩ := (mem_removeId pres eid x).mp hx
        have hold2 := (hPres (cname, pres) hCm).2.1 x hxp
        unfold holdsB at hold2 ⊢
        dsimp only
        rw [lookupKey_setKey_ne _ _ hxe]
        exact hold2
      · intro q' hq' hsome
        dsimp only at hq'
        rcases (mem_setKey_iff hndE q').mp hq' with rfl | ⟨holdq, hneq⟩
        · exfalso
          have : lookupKey (detachEntity e cname).components cname = none :=
            lookupKey_delKey_self _ _
          rw [this] at hsome
          simp at hsome
        · have hx := (hPres (cname, pres) hCm).2.2 q' holdq hsome
          exact (mem_removeId pres eid q'.1).mpr ⟨hx, hneq⟩
    · obtain ⟨hnd3, hfwd, hbwd⟩ := hPres p hold
      refine ⟨hnd3, ?_, ?_⟩
      · intro x hx
        have h1 := hfwd x hx
        by_cases hxe : x = eid
        · subst hxe
          obtain ⟨e0, he0, hsome0⟩ := (holdsB_iff w x p.1).mp h1
          rw [he] at he0
          cases he0
          rw [holdsB_iff]
          refine ⟨detachEntity e cname, ?_, ?_⟩
          · dsimp only
            exact lookupKey_setKey_self _ _ _
          · show (lookupKey (delKey e.components cname) p.1).isSome = true
            rw [lookupKey_delKey_ne _ hne]
            exact hsome0
        · unfold holdsB at h1 ⊢
          dsimp only
          rw [lookupKey_setKey_ne _ _ hxe]
          exact h1
      · intro q' hq' hsome
        dsimp only at hq'
        rcases (mem_setKey_iff hndE q').mp hq' with rfl | ⟨holdq, hneq⟩
        · have hsome' : (lookupKey e.components p.1).isSome = true := by
            have hs := hsome
            rw [show (detachEntity e cname).components = delKey e.components cname
              from rfl] at hs
            rwa [lookupKey_delKey_ne _ hne] at hs
          exact hbwd (eid, e) (lookupKey_some_mem he) hsome'
        · exact hbwd q' holdq hsome
  · dsimp only
    intro p hp
    obtain ⟨hres0, hreg0⟩ := hQs p hp
    refine ⟨hres0, ?_⟩
    intro n hn
    exact isSome_lookupKey_setKey_of _ _ (hreg0 n hn)

theorem detach_WF {w : ECS} (eid : EntityId) (cname : String) (hwf : WF w) :
    WF (removeComponent w eid cname).1 := by
  match he : lookupKey w.entities eid with
  | none =>
    rw [removeComponent_no_entity cname he]
    exact hwf
  | some e =>
    match hheld : lookupKey e.components cname with
    | none =>
      rw [removeComponent_not_held he hheld]
      exact hwf
    | some comp =>
      have hreg : (lookupKey w.components cname).isSome = true :=
        (hwf.2.2.2.1 (eid, e) (lookupKey_some_mem he)).2.2 (cname, comp)
          (lookupKey_some_mem hheld)
      obtain ⟨pres, hc⟩ := Option.isSome_iff_exists.mp hreg
      rw [removeComponent_ok he hheld hc]
      exact refreshQueries_WF cname (detach_mid_WF he hheld hc hwf)

theorem detach_QInv {w : ECS} {k : String} {q : Query} (eid : EntityId) (cname : String)
    (hwf : WF w) (hk : lookupKey w.queries k = some q) (hinv : QInv w q) :
    ∃ q', lookupKey (removeComponent w eid cname).1.queries k = some q' ∧
      q'.componentNames = q.componentNames ∧ q'.resolved = q.resolved ∧
      QInv (removeComponent w eid cname).1 q' := by
  match he : lookupKey w.entities eid with
  | none =>
    rw [removeComponent_no_entity cname he]
    exact ⟨q, hk, rfl, rfl, hinv⟩
  | some e =>
    match hheld : lookupKey e.components cname with
    | none =>
      rw [removeComponent_not_held he hheld]
      exact ⟨q, hk, rfl, rfl, hinv⟩
    | some comp =>
      have hregc : (lookupKey w.components cname).isSome = true :=
        (hwf.2.2.2.1 (eid, e) (lookupKey_some_mem he)).2.2 (cname, comp)
          (lookupKey_some_mem hheld)
      obtain ⟨pres, hc⟩ := Option.isSome_iff_exists.mp hregc
      rw [removeComponent_ok he hheld hc]
      have hwf₂ := detach_mid_WF he hheld hc hwf
      have hall : ∀ p ∈ ({ w with
          entities := setKey w.entities eid (detachEntity e cname)
          components := setKey w.components cname (removeId pres eid) } : ECS).queries,
          p.2.resolved.all Option.isSome = true := by
        intro p hp
        obtain ⟨hres0, -⟩ := hwf₂.2.2.2.2.2 p hp
        rw [hres0]
        simp [List.all_eq_true]
      obtain ⟨h1, h2, h3, h4, h5, h6, h7, h8⟩ :=
        refreshQueries_ok cname (w.queries.map Prod.fst) { w with
          entities := setKey w.entities eid (detachEntity e cname)
          components := setKey w.components cname (removeId pres eid) } hall hwf.2.2.1
      have hmid : lookupKey ({ w with
          entities := setKey w.entities eid (detachEntity e cname)
          components := setKey w.components cname (removeId pres eid) } : ECS).queries k
          = some q := hk
      have h9 := h8 k
      rw [hmid] at h9
      simp only [Option.map_some'] at h9
      have hkmem : k ∈ w.queries.map Prod.fst :=
        (lookupKey_isSome_iff _ _).mp (by simp [hk])
      by_cases hcnm : cname ∈ q.componentNames
      · rw [if_pos ⟨hkmem, hcnm⟩] at h9
        refine ⟨_, h9, (refreshOk_projections _ _).1, (refreshOk_projections _ _).2.1, ?_⟩
        have hqwf₂ : QWF { w with
            entities := setKey w.entities eid (detachEntity e cname)
            components := setKey w.components cname (removeId pres eid) } q :=
          hwf₂.2.2.2.2.2 (k, q) (lookupKey_some_mem hmid)
        exact QInv_congr h2 _ (refreshOk_QInv hwf₂ hqwf₂)
      · rw [if_neg (fun hcon => hcnm hcon.2)] at h9
        refine ⟨q, h9, rfl, rfl, ?_⟩
        refine QInv_congr h2 q ?_
        have hmB : matchesB q.componentNames (detachEntity e cname)
            = matchesB q.componentNames e := matchesB_delKey_notMem hcnm
        constructor
        · intro pr hpr
          have hold := hinv.1 pr hpr
          by_cases hpe : pr.1 = eid
          · rw [matchesInWorldB_iff] at hold ⊢
            obtain ⟨e0, he0, hall0⟩ := hold
            rw [hpe, he] at he0
            cases he0
            refine ⟨detachEntity e cname, ?_, ?_⟩
            · dsimp only
              rw [hpe]
              exact lookupKey_setKey_self _ _ _
            · have hmBe : matchesB q.componentNames (detachEntity e cname) = true := by
                rw [hmB]
                exact (matchesB_iff _ _).mpr hall0
              exact (matchesB_iff _ _).mp hmBe
          · rw [matchesInWorldB_iff] at hold ⊢
            obtain ⟨e0, he0, hall0⟩ := hold
            refine ⟨e0, ?_, hall0⟩
            dsimp only
            rw [lookupKey_setKey_ne _ _ hpe]
            exact he0
        · intro p hp hm
          dsimp only at hp
          rcases (mem_setKey_iff hwf.1 p).mp hp with rfl | ⟨hold, hne⟩
          · have hmm : matchesB q.componentNames e = true := by
              rw [← hmB]
              exact hm
            exact hinv.2 (eid, e) (lookupKey_some_mem he) hmm
          · exact hinv.2 p hold hm

/-! ### Mutation sequences and query creation -/

theorem step_WF {w : ECS} (op : MOp) (hwf : WF w) : WF (step w op) := by
  cases op with
  | attach eid cname props => exact attach_WF eid cname props hwf
  | detach eid cname => exact detach_WF eid cname hwf

theorem steps_WF {w : ECS} (ops : List MOp) (hwf : WF w) : WF (steps w ops) := by
  induction ops generalizing w with
  | nil => exact hwf
  | cons op tl ih => exact ih (step_WF op hwf)

theorem step_tracked {w : ECS} {k : String} {q : Query} (op : MOp) (hwf : WF w)
    (hk : lookupKey w.queries k = some q) (hnames : q.componentNames.Nodup)
    (hinv : QInv w q) :
    ∃ q', lookupKey (step w op).queries k = some q' ∧
      q'.componentNames = q.componentNames ∧ q'.resolved = q.resolved ∧
      QInv (step w op) q' := by
  cases op with
  | attach eid cname props => exact attach_QInv eid cname props hwf hk hnames hinv
  | detach eid cname => exact detach_QInv eid cname hwf hk hinv

theorem steps_tracked {w : ECS} {k : String} {q : Query} (ops : List MOp) (hwf : WF w)
    (hk : lookupKey w.queries k = some q) (hnames : q.componentNames.Nodup)
    (hinv : QInv w q) :
    ∃ q', lookupKey (steps w ops).queries k = some q' ∧
      q'.componentNames = q.componentNames ∧ QInv (steps w ops) q' := by
  induction ops generalizing w q with
  | nil => exact ⟨q, hk, rfl, hinv⟩
  | cons op tl ih =>
    obtain ⟨q1, hk1, hn1, hr1, hinv1⟩ := step_tracked op hwf hk hnames hinv
    obtain ⟨q2, hk2, hn2, hinv2⟩ :=
      ih (step_WF op hwf) hk1 (by rw [hn1]; exact hnames) hinv1
    exact ⟨q2, hk2, hn2.trans hn1, hinv2⟩

theorem compileQuery_resolved {w : ECS} (logic : List String)
    (hreg : ∀ t ∈ logic, (lookupKey w.components (stripNot t)).isSome = true) :
    (compileQuery w logic).resolved = (logic.map stripNot).map some := by
  unfold compileQuery
  dsimp only
  refine List.map_congr_left ?_
  intro n hn
  obtain ⟨t, ht, rfl⟩ := List.mem_map.mp hn
  rw [if_pos (hreg t ht)]

theorem refresh_ok_of_nb {w : ECS} {q : Query}
    (h : ¬ (¬ w.entities = [] ∧ q.resolved.any Option.isNone = true)) :
    refresh w q = Except.ok (refreshOk w q) := by
  unfold refresh
  rw [if_neg h]

theorem createQuery_fresh_eq {w : ECS} (logic : List String)
    (hfresh : lookupKey w.queries (logicKey logic) = none)
    (hnb : ¬ (¬ w.entities = []
      ∧ (compileQuery w logic).resolved.any Option.isNone = true)) :
    createQuery w logic
      = ({ w with
            queries := setKey w.queries (logicKey logic)
                (refreshOk w (compileQuery w logic)) },
          Except.ok true) := by
  have hnb₂ : ¬ (¬ ({ w with
      queries := setKey w.queries (logicKey logic)
          (refreshOk w (compileQuery w logic)) } : ECS).entities = []
      ∧ (refreshOk w (compileQuery w logic)).resolved.any Option.isNone = true) := hnb
  simp only [createQuery]
  rw [if_neg (by simp [hfresh]), refresh_ok_of_nb hnb]
  show (let w₁ : ECS := { w with
        queries := setKey w.queries (logicKey logic)
            (refreshOk w (compileQuery w logic)) };
    match refresh w₁ (refreshOk w (compileQuery w logic)) with
    | Except.error err => (w₁, Except.error err)
    | Except.ok q₁ =>
      ({ w₁ with
          queries := setKey w₁.queries (logicKey logic) q₁ },
        Except.ok true)) = _
  dsimp only
  rw [refresh_ok_of_nb hnb₂]
  dsimp only
  rw [setKey_setKey_same]
  rfl

theorem createQuery_fresh {w : ECS} (logic : List String) (hwf : WF w)
    (hfresh : lookupKey w.queries (logicKey logic) = none)
    (hreg : ∀ t ∈ logic, (lookupKey w.components (stripNot t)).isSome = true) :
    (createQuery w logic).2 = Except.ok true ∧
    (createQuery w logic).1.entities = w.entities ∧
    (createQuery w logic).1.components = w.components ∧
    ∃ q, lookupKey (createQuery w logic).1.queries (logicKey logic) = some q ∧
      q.componentNames = logic.map stripNot ∧
      q.resolved = (logic.map stripNot).map some ∧
      WF (createQuery w logic).1 ∧ QInv (createQuery w logic).1 q := by
  have hresolved := compileQuery_resolved logic hreg
  have hallsome : (compileQuery w logic).resolved.all Option.isSome = true := by
    rw [hresolved]
    simp [List.all_eq_true]
  have hnb : ¬ (¬ w.entities = []
      ∧ (compileQuery w logic).resolved.any Option.isNone = true) := by
    rintro ⟨-, hany⟩
    obtain ⟨r, hr, hN⟩ := List.any_eq_true.mp hany
    have hs := List.all_eq_true.mp hallsome r hr
    cases r
    · simp at hs
    · simp at hN
  rw [createQuery_fresh_eq logic hfresh hnb]
  have hwf' := hwf
  obtain ⟨hndE, hndC, hndQ, hEnt, hPres, hQs⟩ := hwf
  have hqwf : QWF w (compileQuery w logic) := by
    constructor
    · exact hresolved
    · intro n hn
      obtain ⟨t, ht, rfl⟩ := List.mem_map.mp hn
      exact hreg t ht
  refine ⟨rfl, rfl, rfl, refreshOk w (compileQuery w logic),
    lookupKey_setKey_self _ _ _, rfl, hresolved, ⟨?_, ?_, ?_, ?_, ?_, ?_⟩, ?_⟩
  · exact hndE
  · exact hndC
  · exact nodup_map_fst_setKey _ hndQ
  · intro p hp
    exact hEnt p hp
  · intro p hp
    exact hPres p hp
  · intro p hp
    rcases mem_setKey_weak hp with rfl | hin
    · constructor
      · show (refreshOk w (compileQuery w logic)).resolved
          = (logic.map stripNot).map some
        exact hresolved
      · intro n hn
        exact hqwf.2 n hn
    · exact hQs p hin
  · have hQ : QInv w (refreshOk w (compileQuery w logic)) := refreshOk_QInv hwf' hqwf
    exact QInv_congr rfl _ hQ

/-! ### `ECS.query` reductions -/

theorem query_cached {w : ECS} {logic : List String} {q : Query}
    (hq : lookupKey w.queries (logicKey logic) = some q) :
    query w logic = (w, Except.ok q.entities) := by
  simp only [query]
  rw [hq]

theorem createQuery_fresh_err {w : ECS} (logic : List String)
    (hfresh : lookupKey w.queries (logicKey logic) = none)
    (hbad : ¬ w.entities = [] ∧ (compileQuery w logic).resolved.any Option.isNone = true) :
    createQuery w logic = (w, Except.error JsError.typeError) := by
  have herr : refresh w (compileQuery w logic) = Except.error JsError.typeError := by
    unfold refresh
    rw [if_pos hbad]
  simp only [createQuery]
  rw [if_neg (by simp [hfresh]), herr]

/-! ### The claims -/

/-- C2 (confirmed): in any well-formed world, after any sequence of
`addComponent`/`removeComponent` operations, every registered component
type's presence index (`component_class.entities`) holds exactly the ids of
the entities currently holding a component of that type. -/
theorem C2_presence_exact (w : ECS) (ops : List MOp) (hwf : WF w) (T : String)
    (pres : List EntityId)
    (hT : lookupKey (steps w ops).components T = some pres) :
    ∀ eid, eid ∈ pres ↔
      ∃ e, lookupKey (steps w ops).entities eid = some e ∧
        (lookupKey e.components T).isSome = true := by
  have hwfs := steps_WF ops hwf
  have hp := hwfs.2.2.2.2.1 (T, pres) (lookupKey_some_mem hT)
  intro eid
  constructor
  · intro hin
    have hh := hp.2.1 eid hin
    rw [holdsB_iff] at hh
    exact hh
  · rintro ⟨e, he, hsome⟩
    exact hp.2.2 (eid, e) (lookupKey_some_mem he) hsome

/-- C2 witness: in the world with type `A` registered and entity `e1`, after
attaching `A` to `e1`, the presence index of `A` is exactly `{e1}`. -/
theorem C2_witness :
    "e1" ∈ ["e1"] ↔
      ∃ e, lookupKey (steps wA1 [MOp.attach "e1" "A" []]).entities "e1" = some e ∧
        (lookupKey e.components "A").isSome = true :=
  C2_presence_exact wA1 [MOp.attach "e1" "A" []] (by decide) "A" ["e1"] (by decide) "e1"

/-- C3 (code bug): detaching a component the entity does not hold throws a
`ReferenceError` instead of logging and returning: the else branch of
`removeComponent` interpolates `component_name`, a `const` declared only
inside the then branch, so evaluating the `console.error` template literal
throws.  State is otherwise unchanged.  Evaluated here at the failing input:
entity `e1` holds nothing and `Position` is detached. -/
theorem C3_detach_missing_throws :
    removeComponent wA1 "e1" "Position" = (wA1, some JsError.referenceError) := by
  decide

/-- C4 (confirmed): attaching a component class whose name is not registered
with the world throws (`Error` surfaced to the caller) and leaves the whole
world - entity table, presence indexes, query caches, and the event log (no
`component_added` is published) - unchanged. -/
theorem C4_unregistered_attach (w : ECS) (eid : EntityId) (K : String)
    (props : List (String × Int)) (h : lookupKey w.components K = none) :
    addComponent w eid K props = (w, some JsError.unregistered) :=
  addComponent_err_unregistered h

/-- C4 witness: scenario A of the spec - no types registered, attaching
`Position` fails hard with the entity and world untouched. -/
theorem C4_witness :
    addComponent wEnt "e1" "Position" [] = (wEnt, some JsError.unregistered) :=
  C4_unregistered_attach wEnt "e1" "Position" [] (by decide)

/-- C5 counterexample: `query` on a fresh logic list whose token is
unregistered, in a world with one entity, propagates the `TypeError` thrown
inside the `Query` constructor's first `refresh` - the caller crashes instead
of receiving an empty result set. -/
theorem C5_counterexample :
    (query wEnt ["Position"]).2 = Except.error JsError.typeError ∧
    ¬ (query wEnt ["Position"]).2 = Except.ok [] := by
  decide

/-- C5 (amended): `query` returns the cached result set for the logic key,
creating and populating the query on first use; but when creation fails by
throwing (an unregistered token while the entity table is non-empty) the
exception propagates to the caller instead of an empty result set.  The
`return {}` branch is unreachable from `query` because `createQuery` only
returns `false` for a key that `query` just found absent. -/
theorem C5_amended (w : ECS) (logic : List String) :
    (∀ q, lookupKey w.queries (logicKey logic) = some q →
      query w logic = (w, Except.ok q.entities)) ∧
    (lookupKey w.queries (logicKey logic) = none →
      if ¬ w.entities = [] ∧ (compileQuery w logic).resolved.any Option.isNone = true
      then query w logic = (w, Except.error JsError.typeError)
      else ∃ q, lookupKey (query w logic).1.queries (logicKey logic) = some q ∧
        (query w logic).2 = Except.ok q.entities) := by
  constructor
  · intro q hq
    exact query_cached hq
  · intro hfresh
    by_cases hbad : ¬ w.entities = []
        ∧ (compileQuery w logic).resolved.any Option.isNone = true
    · rw [if_pos hbad]
      have hcq := createQuery_fresh_err logic hfresh hbad
      simp only [query]
      rw [hfresh, hcq]
    · rw [if_neg hbad]
      have hcq := createQuery_fresh_eq logic hfresh hbad
      have hq : query w logic
          = ({ w with
              queries := setKey w.queries (logicKey logic)
                  (refreshOk w (compileQuery w logic)) },
            Except.ok (refreshOk w (compileQuery w logic)).entities) := by
        simp only [query]
        rw [hfresh, hcq]
        dsimp only
        rw [lookupKey_setKey_self]
        rfl
      refine ⟨refreshOk w (compileQuery w logic), ?_, ?_⟩
      · rw [hq]
        dsimp only
        exact lookupKey_setKey_self _ _ _
      · rw [hq]

/-- C5 witness: the cached path at a concrete world - `wq5` already holds the
query `["A"]`, and `query` returns its cached (empty) result set. -/
theorem C5_witness : query wq5 ["A"] = (wq5, Except.ok qA5.entities) :=
  (C5_amended wq5 ["A"]).1 qA5 (by decide)

/-- C6 (confirmed): registering the same system name or the same component
class name a second time leaves the world state identical to registering it
once - in particular the systems/components tables are unchanged and, since
`hookRuns` is part of the state, `onRegistration` is not invoked again. -/
theorem C6_register_idempotent (w : ECS) (sname cname : String) :
    registerSystem (registerSystem w sname) sname = registerSystem w sname ∧
    registerComponent (registerComponent w cname) cname = registerComponent w cname := by
  constructor
  · by_cases h : sname ∈ w.systems
    · have h1 : registerSystem w sname = w := by
        unfold registerSystem
        rw [if_pos h]
      rw [h1]
      exact h1
    · have h1 : registerSystem w sname
          = { w with
              systems := w.systems ++ [sname]
              hookRuns := w.hookRuns ++ [sname] } := by
        unfold registerSystem
        rw [if_neg h]
      rw [h1]
      unfold registerSystem
      rw [if_pos (by simp)]
  · by_cases h : (lookupKey w.components cname).isSome = true
    · have h1 : registerComponent w cname = w := by
        unfold registerComponent
        rw [if_pos h]
      rw [h1]
      exact h1
    · have h1 : registerComponent w cname
          = { w with components := setKey w.components cname [] } := by
        unfold registerComponent
        rw [if_neg h]
      rw [h1]
      unfold registerComponent
      rw [if_pos (by simp [lookupKey_setKey_self])]

/-- C8 (confirmed): a query compiled from the empty logic list has zero
required types, so its full rebuild (`Query.refresh`) matches every entity
(`0 == 0`): the rebuilt cache maps exactly the ids present in the world's
entity table to `true`. -/
theorem C8_empty_logic (w : ECS) :
    ∃ q, refresh w (compileQuery w []) = Except.ok q ∧
      ∀ eid, lookupKey q.entities eid
        = if eid ∈ w.entities.map Prod.fst then some CacheVal.vtrue else none := by
  refine ⟨refreshOk w (compileQuery w []), refresh_ok_of_allSome (by rfl), ?_⟩
  intro eid
  rw [refreshOk_lookup]
  by_cases h : eid ∈ w.entities.map Prod.fst
  · rw [if_pos ⟨h, by rfl⟩, if_pos h]
  · rw [if_neg (fun hc => h hc.1), if_neg h]

/-- C10 (confirmed): the cached value is path-dependent - the full rebuild
stores the boolean `true` under every matching id, the incremental attach
path stores the entity object (modelled by its id), and after a mixed
sequence one cache maps `f` to `true` (rebuilt on detach) and `e` to the
entity object (incrementally inserted). -/
theorem C10_cache_values :
    (∀ w q, (refreshOk w q).entities.all
      (fun pr => decide (pr.2 = CacheVal.vtrue)) = true) ∧
    (∀ q e, (componentAddedToEntity q e).entities = q.entities ∨
      (componentAddedToEntity q e).entities
        = setKey q.entities e.id (CacheVal.ventity e.id)) ∧
    (lookupKey (steps wPfe [MOp.attach "e" "P" [], MOp.detach "e" "P",
        MOp.attach "e" "P" []]).queries (logicKey ["P"])).map
        (fun q => (lookupKey q.entities "f", lookupKey q.entities "e"))
      = some (some CacheVal.vtrue, some (CacheVal.ventity "e")) := by
  refine ⟨?_, ?_, by decide⟩
  · intro w q
    rw [List.all_eq_true]
    intro pr hpr
    simp only [refreshOk] at hpr
    rw [mem_filterMap_ite] at hpr
    simp [hpr.2.2]
  · intro q e
    by_cases hcnt : (e.components.map Prod.fst).countP
        (fun n => decide (n ∈ q.componentNames)) = q.resolved.length
    · exact Or.inr (componentAdded_match hcnt)
    · refine Or.inl ?_
      rw [componentAdded_nomatch hcnt]

/-- C1 counterexample: the claim fails for logic lists with repeated tokens.
In `wDup` the query `["A","A"]` requires a count of 2, but the incremental
path counts each distinct component key of the entity at most once, so after
attaching `A` to `e1` the cache is still empty even though `e1` holds every
type in the query's resolved type list. -/
theorem C1_counterexample :
    (lookupKey wDup.queries (logicKey ["A", "A"])).map Query.entities = some [] ∧
    (lookupKey wDup.queries (logicKey ["A", "A"])).map
      (fun q => matchesInWorldB wDup q.componentNames "e1") = some true := by
  decide

/-- C1 (amended): restricted to logic lists whose stripped tokens are
pairwise distinct and registered at creation time, and starting from a
well-formed world: after creating the query and running any sequence of
attach/detach operations (each maintained by the incremental path on attach
and the full rebuild on detach), the ids in the query's cache are exactly
the entities holding at least one component of every type in its resolved
type list. -/
theorem C1_amended (w : ECS) (logic : List String) (ops : List MOp)
    (hwf : WF w)
    (hfresh : lookupKey w.queries (logicKey logic) = none)
    (hreg : ∀ t ∈ logic, (lookupKey w.components (stripNot t)).isSome = true)
    (hnd : (logic.map stripNot).Nodup) :
    ∃ q, lookupKey (steps (createQuery w logic).1 ops).queries (logicKey logic)
        = some q ∧
      q.componentNames = logic.map stripNot ∧
      ∀ eid, (lookupKey q.entities eid).isSome = true ↔
        ∃ e, lookupKey (steps (createQuery w logic).1 ops).entities eid = some e ∧
          ∀ n ∈ q.componentNames, (lookupKey e.components n).isSome = true := by
  obtain ⟨-, -, -, q0, hk0, hn0, hr0, hwf1, hinv0⟩ :=
    createQuery_fresh logic hwf hfresh hreg
  obtain ⟨q1, hk1, hn1, hinv1⟩ :=
    steps_tracked ops hwf1 hk0 (by rw [hn0]; exact hnd) hinv0
  refine ⟨q1, hk1, hn1.trans hn0, ?_⟩
  intro eid
  rw [QInv_lookup_iff hinv1 eid, matchesInWorldB_iff]

/-- C1 witness: type `A` registered, entity `e1`, query `["A"]` created,
then `A` attached - the invariant instance produced by `C1_amended`. -/
theorem C1_witness :
    ∃ q, lookupKey (steps (createQuery wA1 ["A"]).1
        [MOp.attach "e1" "A" [("x", 1)]]).queries (logicKey ["A"]) = some q ∧
      q.componentNames = ["A"].map stripNot ∧
      ∀ eid, (lookupKey q.entities eid).isSome = true ↔
        ∃ e, lookupKey (steps (createQuery wA1 ["A"]).1
            [MOp.attach "e1" "A" [("x", 1)]]).entities eid = some e ∧
          ∀ n ∈ q.componentNames, (lookupKey e.components n).isSome = true :=
  C1_amended wA1 ["A"] [MOp.attach "e1" "A" [("x", 1)]] (by decide) (by decide)
    (by decide) (by decide)

/-- C9 counterexample: the claimed equivalence with "all `!` prefixes
removed" fails for a token carrying two markers.  `"!!A"` is stripped once
to the required name `"!A"`, not `"A"`: on the attached entity `e1` the
query built from `["!!A"]` matches nothing while the query built from
`["A"]` (the fully stripped list) inserts `e1`; and stripping is visibly not
idempotent on the token. -/
theorem C9_counterexample :
    (componentAddedToEntity (compileQuery wA1 ["!!A"]) entA).entities = [] ∧
    (componentAddedToEntity (compileQuery wA1 ["A"]) entA).entities
      = [("e1", CacheVal.ventity "e1")] ∧
    ¬ stripNot (stripNot "!!A") = stripNot "!!A" := by
  decide

/-- C9 (amended): each token has at most one leading `!` stripped, and the
stripped name is added as a required (AND) name - never as an exclusion.
For lists whose tokens carry at most one marker (stripping is idempotent on
them), the compiled required names, the resolution, the incremental attach
update and the full rebuild coincide with those of the stripped list:
negation is inert at the matching level. -/
theorem C9_amended (w : ECS) (L : List String) (e : Entity)
    (h : ∀ t ∈ L, stripNot (stripNot t) = stripNot t) :
    (compileQuery w L).componentNames = L.map stripNot ∧
    (compileQuery w (L.map stripNot)).componentNames
      = (compileQuery w L).componentNames ∧
    (compileQuery w (L.map stripNot)).resolved = (compileQuery w L).resolved ∧
    (componentAddedToEntity (compileQuery w (L.map stripNot)) e).entities
      = (componentAddedToEntity (compileQuery w L) e).entities ∧
    (refresh w (compileQuery w (L.map stripNot))).map Query.entities
      = (refresh w (compileQuery w L)).map Query.entities := by
  have hnames : (L.map stripNot).map stripNot = L.map stripNot := by
    rw [List.map_map]
    refine List.map_congr_left ?_
    intro t ht
    exact h t ht
  have hN : (compileQuery w (L.map stripNot)).componentNames
      = (compileQuery w L).componentNames := hnames
  have hR : (compileQuery w (L.map stripNot)).resolved
      = (compileQuery w L).resolved := by
    show ((L.map stripNot).map stripNot).map _ = (L.map stripNot).map _
    rw [hnames]
  refine ⟨rfl, hN, hR, ?_, ?_⟩
  · by_cases hcnt : (e.components.map Prod.fst).countP
        (fun n => decide (n ∈ (compileQuery w L).componentNames))
        = (compileQuery w L).resolved.length
    · rw [componentAdded_match hcnt, componentAdded_match (by rw [hN, hR]; exact hcnt)]
      rfl
    · rw [componentAdded_nomatch hcnt, componentAdded_nomatch (by rw [hN, hR]; exact hcnt)]
      rfl
  · by_cases hbad : ¬ w.entities = []
        ∧ (compileQuery w L).resolved.any Option.isNone = true
    · have h1 : refresh w (compileQuery w L) = Except.error JsError.typeError := by
        unfold refresh
        rw [if_pos hbad]
      have h2 : refresh w (compileQuery w (L.map stripNot))
          = Except.error JsError.typeError := by
        unfold refresh
        rw [if_pos (by rw [hR]; exact hbad)]
      rw [h1, h2]
    · have h1 : refresh w (compileQuery w L)
          = Except.ok (refreshOk w (compileQuery w L)) := refresh_ok_of_nb hbad
      have h2 : refresh w (compileQuery w (L.map stripNot))
          = Except.ok (refreshOk w (compileQuery w (L.map stripNot))) :=
        refresh_ok_of_nb (by rw [hR]; exact hbad)
      rw [h1, h2]
      simp only [Except.map]
      show Except.ok (refreshOk w (compileQuery w (L.map stripNot))).entities = _
      unfold refreshOk
      dsimp only
      rw [hR]

/-- C9 witness: a single-marker list behaves exactly like its stripped
version. -/
theorem C9_witness :
    (compileQuery wA1 ["!B", "A"]).componentNames = ["!B", "A"].map stripNot ∧
    (compileQuery wA1 (["!B", "A"].map stripNot)).componentNames
      = (compileQuery wA1 ["!B", "A"]).componentNames ∧
    (compileQuery wA1 (["!B", "A"].map stripNot)).resolved
      = (compileQuery wA1 ["!B", "A"]).resolved ∧
    (componentAddedToEntity (compileQuery wA1 (["!B", "A"].map stripNot)) entA).entities
      = (componentAddedToEntity (compileQuery wA1 ["!B", "A"]) entA).entities ∧
    (refresh wA1 (compileQuery wA1 (["!B", "A"].map stripNot))).map Query.entities
      = (refresh wA1 (compileQuery wA1 ["!B", "A"])).map Query.entities :=
  C9_amended wA1 ["!B", "A"] entA (by decide)

theorem attach_state {w : ECS} {eid : EntityId} {cname : String} {e : Entity}
    {pres : List EntityId} (props : List (String × Int))
    (hc : lookupKey w.components cname = some pres)
    (he : lookupKey w.entities eid = some e) :
    (addComponent w eid cname props).1.entities
      = setKey w.entities eid (attachEntity e cname props eid) ∧
    (addComponent w eid cname props).1.components
      = setKey w.components cname (insertId pres eid) ∧
    ∀ k, lookupKey (addComponent w eid cname props).1.queries k
      = (lookupKey w.queries k).map
          (fun qq => componentAddedToEntity qq (attachEntity e cname props eid)) := by
  rw [addComponent_ok hc he]
  refine ⟨rfl, rfl, ?_⟩
  intro k
  dsimp only
  rw [lookupKey_map_pair]

theorem detach_state {w : ECS} {eid : EntityId} {cname : String} {e : Entity}
    {comp : Component} {pres : List EntityId}
    (hwf : WF w)
    (he : lookupKey w.entities eid = some e)
    (hheld : lookupKey e.components cname = some comp)
    (hc : lookupKey w.components cname = some pres) :
    (removeComponent w eid cname).1.entities
      = setKey w.entities eid (detachEntity e cname) ∧
    (removeComponent w eid cname).1.components
      = setKey w.components cname (removeId pres eid) ∧
    ∀ k, lookupKey (removeComponent w eid cname).1.queries k
      = (lookupKey w.queries k).map (fun qq =>
          if cname ∈ qq.componentNames
          then refreshOk { w with
              entities := setKey w.entities eid (detachEntity e cname)
              components := setKey w.components cname (removeId pres eid) } qq
          else qq) := by
  rw [removeComponent_ok he hheld hc]
  have hwf₂ := detach_mid_WF he hheld hc hwf
  have hall : ∀ p ∈ ({ w with
      entities := setKey w.entities eid (detachEntity e cname)
      components := setKey w.components cname (removeId pres eid) } : ECS).queries,
      p.2.resolved.all Option.isSome = true := by
    intro p hp
    obtain ⟨hres0, -⟩ := hwf₂.2.2.2.2.2 p hp
    rw [hres0]
    simp [List.all_eq_true]
  obtain ⟨h1, h2, h3, h4, h5, h6, h7, h8⟩ :=
    refreshQueries_ok cname (w.queries.map Prod.fst) { w with
      entities := setKey w.entities eid (detachEntity e cname)
      components := setKey w.components cname (removeId pres eid) } hall hwf.2.2.1
  refine ⟨h2, h3, ?_⟩
  intro k
  rw [h8 k]
  have hlq : lookupKey ({ w with
      entities := setKey w.entities eid (detachEntity e cname)
      components := setKey w.components cname (removeId pres eid) } : ECS).queries k
      = lookupKey w.queries k := rfl
  rw [hlq]
  cases hq0 : lookupKey w.queries k with
  | none => rfl
  | some qq =>
    simp only [Option.map_some']
    by_cases hmem : cname ∈ qq.componentNames
    · rw [if_pos ⟨(lookupKey_isSome_iff _ _).mp (by simp [hq0]), hmem⟩, if_pos hmem]
    · rw [if_neg (fun hcon => hmem hcon.2), if_neg hmem]

/-- C7 counterexample: the round trip is not identical at the level of cached
contents.  In `wPfe` the cache of `["P"]` holds `f` as an entity object
(incremental insert); after `attach;detach;attach` on `e` the detach-triggered
full rebuild has rewritten `f`'s value to the boolean `true`, while a single
attach leaves it an entity object. -/
theorem C7_counterexample :
    (lookupKey (steps wPfe [MOp.attach "e" "P" []]).queries (logicKey ["P"])).map
        (fun q => lookupKey q.entities "f") = some (some (CacheVal.ventity "f")) ∧
    (lookupKey (steps wPfe [MOp.attach "e" "P" [], MOp.detach "e" "P",
        MOp.attach "e" "P" []]).queries (logicKey ["P"])).map
        (fun q => lookupKey q.entities "f") = some (some CacheVal.vtrue) ∧
    ¬ CacheVal.ventity "f" = CacheVal.vtrue := by
  decide

/-- C7 (amended): in a well-formed world whose live queries have duplicate-free
required names and caches satisfying invariant I2, `attach(T); detach(T);
attach(T)` on an existing entity agrees with a single `attach(T)` up to:
identical component maps on every entity (same components, same property
values), and the same id key set in every query cache.  (The cached values
themselves may differ, as the counterexample shows.) -/
theorem C7_amended (w : ECS) (eid : EntityId) (T : String) (props : List (String × Int))
    (hwf : WF w)
    (hregT : (lookupKey w.components T).isSome = true)
    (hent : (lookupKey w.entities eid).isSome = true)
    (hq : ∀ p ∈ w.queries, p.2.componentNames.Nodup ∧ QInv w p.2) :
    (∀ i e1 e2,
        lookupKey (steps w [MOp.attach eid T props]).entities i = some e1 →
        lookupKey (steps w [MOp.attach eid T props, MOp.detach eid T,
          MOp.attach eid T props]).entities i = some e2 →
        ∀ n, lookupKey e1.components n = lookupKey e2.components n) ∧
    (∀ i, (lookupKey (steps w [MOp.attach eid T props]).entities i).isSome
        = (lookupKey (steps w [MOp.attach eid T props, MOp.detach eid T,
          MOp.attach eid T props]).entities i).isSome) ∧
    (∀ k q1 q2,
        lookupKey (steps w [MOp.attach eid T props]).queries k = some q1 →
        lookupKey (steps w [MOp.attach eid T props, MOp.detach eid T,
          MOp.attach eid T props]).queries k = some q2 →
        ∀ i, ((lookupKey q1.entities i).isSome = true
          ↔ (lookupKey q2.entities i).isSome = true)) := by
  obtain ⟨pres, hc⟩ := Option.isSome_iff_exists.mp hregT
  obtain ⟨e, he⟩ := Option.isSome_iff_exists.mp hent
  simp only [steps, List.foldl, step]
  have A := attach_state props hc he
  have hwf1 : WF (addComponent w eid T props).1 := attach_WF eid T props hwf
  have he1 : lookupKey (addComponent w eid T props).1.entities eid
      = some (attachEntity e T props eid) := by
    rw [A.1]
    exact lookupKey_setKey_self _ _ _
  have hheld1 : lookupKey (attachEntity e T props eid).components T
      = some { props := props, entity := some eid } := lookupKey_setKey_self _ _ _
  have hc1 : lookupKey (addComponent w eid T props).1.components T
      = some (insertId pres eid) := by
    rw [A.2.1]
    exact lookupKey_setKey_self _ _ _
  have D := detach_state hwf1 he1 hheld1 hc1
  have hwfd : WF (removeComponent (addComponent w eid T props).1 eid T).1 :=
    detach_WF eid T hwf1
  have he2 : lookupKey (removeComponent (addComponent w eid T props).1 eid
      T).1.entities eid = some (detachEntity (attachEntity e T props eid) T) := by
    rw [D.1]
    exact lookupKey_setKey_self _ _ _
  have hc2 : lookupKey (removeComponent (addComponent w eid T props).1 eid
      T).1.components T = some (removeId (insertId pres eid) eid) := by
    rw [D.2.1]
    exact lookupKey_setKey_self _ _ _
  have A2 := attach_state props hc2 he2
  have he3 : lookupKey (addComponent (removeComponent (addComponent w eid T props).1
      eid T).1 eid T props).1.entities eid
      = some (attachEntity (detachEntity (attachEntity e T props eid) T) T props eid) := by
    rw [A2.1]
    exact lookupKey_setKey_self _ _ _
  have hext : ∀ n, lookupKey (attachEntity (detachEntity (attachEntity e T props eid) T)
      T props eid).components n = lookupKey (attachEntity e T props eid).components n := by
    intro n
    by_cases hn : n = T
    · subst hn
      show lookupKey (setKey (detachEntity (attachEntity e n props eid) n).components n
          { props := props, entity := some eid }) n
        = lookupKey (setKey e.components n { props := props, entity := some eid }) n
      rw [lookupKey_setKey_self, lookupKey_setKey_self]
    · calc lookupKey (attachEntity (detachEntity (attachEntity e T props eid) T)
            T props eid).components n
          = lookupKey (detachEntity (attachEntity e T props eid) T).components n :=
            lookupKey_setKey_ne _ _ hn
        _ = lookupKey (attachEntity e T props eid).components n :=
            lookupKey_delKey_ne _ hn
  refine ⟨?_, ?_, ?_⟩
  · intro i e1 e2 h1 h2 n
    by_cases hi : i = eid
    · subst hi
      rw [he1] at h1
      obtain rfl := Option.some.inj h1
      rw [he3] at h2
      obtain rfl := Option.some.inj h2
      exact (hext n).symm
    · rw [A.1, lookupKey_setKey_ne _ _ hi] at h1
      rw [A2.1, lookupKey_setKey_ne _ _ hi, D.1, lookupKey_setKey_ne _ _ hi, A.1,
        lookupKey_setKey_ne _ _ hi] at h2
      rw [h1] at h2
      obtain rfl := Option.some.inj h2
      rfl
  · intro i
    by_cases hi : i = eid
    · subst hi
      rw [he1, he3]
      rfl
    · rw [A.1, lookupKey_setKey_ne _ _ hi, A2.1, lookupKey_setKey_ne _ _ hi, D.1,
        lookupKey_setKey_ne _ _ hi, A.1, lookupKey_setKey_ne _ _ hi]
  · intro k q1 q2 h1 h2 i
    rw [A.2.2 k] at h1
    cases hq0 : lookupKey w.queries k with
    | none =>
      rw [hq0] at h1
      simp at h1
    | some q0 =>
      rw [hq0] at h1
      simp only [Option.map_some'] at h1
      obtain rfl := Option.some.inj h1
      obtain ⟨hnd0, hinv0⟩ := hq (k, q0) (lookupKey_some_mem hq0)
      obtain ⟨q1', hk1', hn1', hr1', hinv1'⟩ := attach_QInv eid T props hwf hq0 hnd0 hinv0
      have hk1s : lookupKey (addComponent w eid T props).1.queries k
          = some (componentAddedToEntity q0 (attachEntity e T props eid)) := by
        rw [A.2.2 k, hq0]
        rfl
      have hq1eq : q1' = componentAddedToEntity q0 (attachEntity e T props eid) :=
        Option.some.inj (hk1'.symm.trans hk1s)
      subst hq1eq
      obtain ⟨qd, hkd, hnd2, hrd2, hinvd⟩ := detach_QInv eid T hwf1 hk1s hinv1'
      obtain ⟨q2', hk2', hn2', hr2', hinv2'⟩ := attach_QInv eid T props hwfd hkd
        (by rw [hnd2, hn1']; exact hnd0) hinvd
      have hq2eq : q2' = q2 := Option.some.inj (hk2'.symm.trans h2)
      subst hq2eq
      rw [QInv_lookup_iff hinv1' i, QInv_lookup_iff hinv2' i, matchesInWorldB_iff,
        matchesInWorldB_iff, hn2', hnd2]
      constructor
      · rintro ⟨ea, hea, halla⟩
        by_cases hi : i = eid
        · subst hi
          rw [he1] at hea
          obtain rfl := Option.some.inj hea
          refine ⟨_, he3, ?_⟩
          intro n hn
          rw [hext n]
          exact halla n hn
        · refine ⟨ea, ?_, halla⟩
          rw [A2.1, lookupKey_setKey_ne _ _ hi, D.1, lookupKey_setKey_ne _ _ hi]
          exact hea
      · rintro ⟨eb, heb, hallb⟩
        by_cases hi : i = eid
        · subst hi
          rw [he3] at heb
          obtain rfl := Option.some.inj heb
          refine ⟨_, he1, ?_⟩
          intro n hn
          rw [← hext n]
          exact hallb n hn
        · refine ⟨eb, ?_, hallb⟩
          rw [A2.1, lookupKey_setKey_ne _ _ hi, D.1, lookupKey_setKey_ne _ _ hi] at heb
          exact heb

/-- C7 witness: the round-trip agreement instantiated in `wPfe` (type `P`,
entities `f` and `e`, live query `["P"]`, `P` attached to `f`). -/
theorem C7_witness :
    (∀ i e1 e2,
        lookupKey (steps wPfe [MOp.attach "e" "P" []]).entities i = some e1 →
        lookupKey (steps wPfe [MOp.attach "e" "P" [], MOp.detach "e" "P",
          MOp.attach "e" "P" []]).entities i = some e2 →
        ∀ n, lookupKey e1.components n = lookupKey e2.components n) ∧
    (∀ i, (lookupKey (steps wPfe [MOp.attach "e" "P" []]).entities i).isSome
        = (lookupKey (steps wPfe [MOp.attach "e" "P" [], MOp.detach "e" "P",
          MOp.attach "e" "P" []]).entities i).isSome) ∧
    (∀ k q1 q2,
        lookupKey (steps wPfe [MOp.attach "e" "P" []]).queries k = some q1 →
        lookupKey (steps wPfe [MOp.attach "e" "P" [], MOp.detach "e" "P",
          MOp.attach "e" "P" []]).queries k = some q2 →
        ∀ i, ((lookupKey q1.entities i).isSome = true
          ↔ (lookupKey q2.entities i).isSome = true)) :=
  C7_amended wPfe "e" "P" [] (by decide) (by decide) (by decide) (by decide)

end JsEcs
